import Mathlib

/-!
# pygram11: one-dimensional uniform-binned histogram kernels

A shallow embedding of `src/pygram11/_core.hpp`.

* Floating-point values (`T`, `double`) are modelled by exact rationals `ℚ`;
  the serial kernels are given a second time in IEEE double precision
  (`c_uniform1d_f64`, `c_uniform1d_weighted_f64`), where rounding matters.
* A pointer/length pair `(data, n)` is a list `data` with `n = data.length`.
* A result buffer is a list; every write is bounds checked and an access
  outside the buffer (undefined behaviour in C++) yields `none`.
* `std::int64_t` cells are integers reduced into the two's-complement range by
  `wrap64` after every arithmetic operation.
* `nbins` is a natural number (the C++ `int` restricted to its non-negative
  values).
-/

namespace Pygram11

/-! ## Machine arithmetic -/

/-- Reduction of an integer into the range of `std::int64_t`
(two's complement, `-2^63 ≤ z < 2^63`). -/
def wrap64 (z : Int) : Int := (z + 2 ^ 63) % 2 ^ 64 - 2 ^ 63

attribute [irreducible] wrap64

/-- Conversion of a real value to `size_t`: the fractional part is discarded
(truncation toward zero). -/
def to_size_t (q : ℚ) : Nat := (Int.tdiv q.num (q.den : Int)).toNat

/-! ## Shared pieces of the four kernels -/

/-- The constant `norm = 1.0 / (xmax - xmin)`. -/
def norm (xmin xmax : ℚ) : ℚ := 1 / (xmax - xmin)

/-- The inclusion test `data[i] >= xmin && data[i] < xmax`. -/
def in_range (x xmin xmax : ℚ) : Bool := decide (x ≥ xmin) && decide (x < xmax)

/-- The index `bin_id = (data[i] - xmin) * norm * nbins`, converted to `size_t`. -/
def bin_id (x : ℚ) (nbins : Nat) (xmin xmax : ℚ) : Nat :=
  to_size_t ((x - xmin) * norm xmin xmax * (nbins : ℚ))

/-- The call `memset(buf, 0, sizeof(*buf) * nbins)`: the first `nbins` cells
become zero, the remaining cells are untouched; `none` when the buffer holds
fewer than `nbins` cells. -/
def memset0 {α : Type} [Zero α] (buf : List α) (nbins : Nat) : Option (List α) :=
  if nbins ≤ buf.length then some (List.replicate nbins 0 ++ buf.drop nbins) else none

/-- A fresh zeroed buffer: `new T[nbins]` followed by `memset(.., 0, ..)`. -/
def new_zeroed {α : Type} [Zero α] (nbins : Nat) : List α := List.replicate nbins 0

/-- The statement `count[bin_id]++` on a buffer of `std::int64_t`. -/
def incr (count : List Int) (b : Nat) : Option (List Int) :=
  match count[b]? with
  | none => none
  | some c => some (count.set b (wrap64 (c + 1)))

/-- The statement `buf[bin_id] += v` on a buffer of `double`. -/
def add_at (buf : List ℚ) (b : Nat) (v : ℚ) : Option (List ℚ) :=
  match buf[b]? with
  | none => none
  | some c => some (buf.set b (c + v))

/-! ## Serial kernels -/

/-- The accumulation loop of `c_uniform1d` (also the worksharing loop body of
`c_uniform1d_omp`), run over the samples in index order. -/
def uniform1d_loop (nbins : Nat) (xmin xmax : ℚ) : List ℚ → List Int → Option (List Int)
  | [], count => some count
  | x :: xs, count =>
    if !(in_range x xmin xmax) then uniform1d_loop nbins xmin xmax xs count
    else
      match incr count (bin_id x nbins xmin xmax) with
      | none => none
      | some count1 => uniform1d_loop nbins xmin xmax xs count1

/-- The kernel `c_uniform1d`: `count` is the caller's buffer as it is on entry,
the result is its content on return. -/
def c_uniform1d (data : List ℚ) (count : List Int) (nbins : Nat) (xmin xmax : ℚ) :
    Option (List Int) :=
  match memset0 count nbins with
  | none => none
  | some count0 => uniform1d_loop nbins xmin xmax data count0

/-- The accumulation loop of `c_uniform1d_weighted` (also the worksharing loop
body of `c_uniform1d_weighted_omp`). `weights[i]` is read only for an in-range
sample; reading past the end of `weights` yields `none`. -/
def uniform1d_weighted_loop (nbins : Nat) (xmin xmax : ℚ) :
    List ℚ → List ℚ → List ℚ × List ℚ → Option (List ℚ × List ℚ)
  | [], _, bufs => some bufs
  | x :: xs, weights, (count, sumw2) =>
    if !(in_range x xmin xmax) then
      uniform1d_weighted_loop nbins xmin xmax xs weights.tail (count, sumw2)
    else
      match weights with
      | [] => none
      | w :: ws =>
        match add_at count (bin_id x nbins xmin xmax) w with
        | none => none
        | some count1 =>
          match add_at sumw2 (bin_id x nbins xmin xmax) (w * w) with
          | none => none
          | some sumw21 => uniform1d_weighted_loop nbins xmin xmax xs ws (count1, sumw21)

/-- The kernel `c_uniform1d_weighted`: `count` (the weight sums) and `sumw2`
are the caller's buffers as they are on entry. -/
def c_uniform1d_weighted (data weights : List ℚ) (count sumw2 : List ℚ) (nbins : Nat)
    (xmin xmax : ℚ) : Option (List ℚ × List ℚ) :=
  match memset0 count nbins with
  | none => none
  | some count0 =>
    match memset0 sumw2 nbins with
    | none => none
    | some sumw20 => uniform1d_weighted_loop nbins xmin xmax data weights (count0, sumw20)

/-! ## Thread-parallel kernels

The `omp parallel` region is run by a team of threads. A schedule of the region
is given by two lists: `owner`, where `owner[i]` is the thread that executes
iteration `i` of the worksharing loop, and `order`, the threads of the team in
the order in which they enter the `omp critical` section. -/

/-- The items whose loop iteration is executed by thread `t`, in index order. -/
def thread_slice {α : Type} (items : List α) (owner : List Nat) (t : Nat) : List α :=
  ((items.zip owner).filter (fun p => p.2 == t)).map Prod.fst

/-- A schedule for `n` iterations: every iteration has exactly one owner, no
thread enters the critical section twice, and every owner is in the team. -/
def valid_schedule (n : Nat) (owner order : List Nat) : Prop :=
  owner.length = n ∧ order.Nodup ∧ ∀ t ∈ owner, t ∈ order

instance (n : Nat) (owner order : List Nat) : Decidable (valid_schedule n owner order) := by
  unfold valid_schedule
  infer_instance

/-- One iteration `count[i] += count_priv[i]` of the merge in `c_uniform1d_omp`. -/
def merge_step (count_priv : List Int) (count : List Int) (i : Nat) : Option (List Int) :=
  match count[i]?, count_priv[i]? with
  | some c, some p => some (count.set i (wrap64 (c + p)))
  | _, _ => none

/-- The critical section of `c_uniform1d_omp`:
`for (int i = 0; i < nbins; i++) count[i] += count_priv[i];`. -/
def merge_counts (count count_priv : List Int) (nbins : Nat) : Option (List Int) :=
  (List.range nbins).foldlM (merge_step count_priv) count

/-- The body of the parallel region of `c_uniform1d_omp`, thread after thread
in the order of their critical sections: a zeroed private buffer, the thread's
share of the loop, the merge into the shared buffer. -/
def omp_region (nbins : Nat) (xmin xmax : ℚ) (data : List ℚ) (owner : List Nat) :
    List Nat → List Int → Option (List Int)
  | [], count => some count
  | t :: ts, count =>
    match uniform1d_loop nbins xmin xmax (thread_slice data owner t) (new_zeroed nbins) with
    | none => none
    | some count_priv =>
      match merge_counts count count_priv nbins with
      | none => none
      | some count1 => omp_region nbins xmin xmax data owner ts count1

/-- The kernel `c_uniform1d_omp` under the schedule `(owner, order)`. -/
def c_uniform1d_omp (data : List ℚ) (count : List Int) (nbins : Nat) (xmin xmax : ℚ)
    (owner order : List Nat) : Option (List Int) :=
  match memset0 count nbins with
  | none => none
  | some count0 => omp_region nbins xmin xmax data owner order count0

/-- One iteration `count[i] += count_priv[i]; sumw2[i] += sumw2_priv[i];` of the
merge in `c_uniform1d_weighted_omp`. -/
def merge_step_weighted (priv : List ℚ × List ℚ) (bufs : List ℚ × List ℚ) (i : Nat) :
    Option (List ℚ × List ℚ) :=
  match bufs.1[i]?, priv.1[i]?, bufs.2[i]?, priv.2[i]? with
  | some c, some p, some c2, some p2 => some (bufs.1.set i (c + p), bufs.2.set i (c2 + p2))
  | _, _, _, _ => none

/-- The critical section of `c_uniform1d_weighted_omp`. -/
def merge_weighted (bufs priv : List ℚ × List ℚ) (nbins : Nat) : Option (List ℚ × List ℚ) :=
  (List.range nbins).foldlM (merge_step_weighted priv) bufs

/-- The body of the parallel region of `c_uniform1d_weighted_omp`, thread after
thread in the order of their critical sections. -/
def omp_region_weighted (nbins : Nat) (xmin xmax : ℚ) (data weights : List ℚ)
    (owner : List Nat) : List Nat → List ℚ × List ℚ → Option (List ℚ × List ℚ)
  | [], bufs => some bufs
  | t :: ts, bufs =>
    match uniform1d_weighted_loop nbins xmin xmax (thread_slice data owner t)
        (thread_slice weights owner t) (new_zeroed nbins, new_zeroed nbins) with
    | none => none
    | some priv =>
      match merge_weighted bufs priv nbins with
      | none => none
      | some bufs1 => omp_region_weighted nbins xmin xmax data weights owner ts bufs1

/-- The kernel `c_uniform1d_weighted_omp` under the schedule `(owner, order)`. -/
def c_uniform1d_weighted_omp (data weights : List ℚ) (count sumw2 : List ℚ) (nbins : Nat)
    (xmin xmax : ℚ) (owner order : List Nat) : Option (List ℚ × List ℚ) :=
  match memset0 count nbins with
  | none => none
  | some count0 =>
    match memset0 sumw2 nbins with
    | none => none
    | some sumw20 =>
      omp_region_weighted nbins xmin xmax data weights owner order (count0, sumw20)

/-! ## The counting kernel over unbounded integers

The same statements as `c_uniform1d`, with the cells of the result buffer taken
as mathematical integers: the increment is `c + 1`, without reduction into the
range of `std::int64_t`. It serves as the reference against which the 64-bit
accumulation is compared. -/

/-- The statement `count[bin_id]++` on a buffer of unbounded integers. -/
def incr_unbounded (count : List Int) (b : Nat) : Option (List Int) :=
  match count[b]? with
  | none => none
  | some c => some (count.set b (c + 1))

/-- The accumulation loop of `c_uniform1d` on unbounded integers. -/
def uniform1d_loop_unbounded (nbins : Nat) (xmin xmax : ℚ) :
    List ℚ → List Int → Option (List Int)
  | [], count => some count
  | x :: xs, count =>
    if !(in_range x xmin xmax) then uniform1d_loop_unbounded nbins xmin xmax xs count
    else
      match incr_unbounded count (bin_id x nbins xmin xmax) with
      | none => none
      | some count1 => uniform1d_loop_unbounded nbins xmin xmax xs count1

/-- The kernel `c_uniform1d` on unbounded integers. -/
def c_uniform1d_unbounded (data : List ℚ) (count : List Int) (nbins : Nat) (xmin xmax : ℚ) :
    Option (List Int) :=
  match memset0 count nbins with
  | none => none
  | some count0 => uniform1d_loop_unbounded nbins xmin xmax data count0

/-! ## Double-precision arithmetic

A model of IEEE 754 binary64, the type `double` of the source: finite values are
exact rationals, every operation rounds its exact result to the nearest
representable value (ties to even), overflows to an infinity and propagates NaN.
The two signed zeros are identified; the sign of a zero matters only for a
division by zero, which the kernels perform only when `xmax == xmin`, where no
sample is in range and `norm` is not used. -/

/-- A value of type `double`: a finite value, an infinity (`negative` tells its
sign) or NaN. -/
inductive F64 where
  | fin (q : ℚ)
  | inf (negative : Bool)
  | nan
  deriving DecidableEq

instance : Zero F64 := ⟨F64.fin 0⟩

/-- The power `2^e` for an integer exponent. -/
def two_pow (e : Int) : ℚ :=
  if 0 ≤ e then ((2 ^ e.toNat : Nat) : ℚ) else 1 / ((2 ^ (-e).toNat : Nat) : ℚ)

/-- Binary logarithm of a natural number by repeated halving, at most `fuel`
times. -/
def log2_fuel : Nat → Nat → Nat
  | 0, _ => 0
  | fuel + 1, n => if n < 2 then 0 else log2_fuel fuel (n / 2) + 1

/-- For `n > 0`, the exponent `e` with `2^e <= n < 2^(e+1)`. -/
def log2_nat (n : Nat) : Nat := log2_fuel n n

/-- For `q > 0`, the exponent `e` with `2^e <= q < 2^(e+1)`: it is the difference
of the binary logarithms of numerator and denominator, or one less. -/
def log2_floor (q : ℚ) : Int :=
  let e0 : Int := (log2_nat q.num.natAbs : Int) - (log2_nat q.den : Int)
  if two_pow e0 ≤ q then e0 else e0 - 1

/-- Rounding of a rational to the nearest integer, ties to the even one. -/
def round_half_even (m : ℚ) : Int :=
  if m - (⌊m⌋ : ℚ) < 1 / 2 then ⌊m⌋
  else if 1 / 2 < m - (⌊m⌋ : ℚ) then ⌊m⌋ + 1
  else if ⌊m⌋ % 2 = 0 then ⌊m⌋ else ⌊m⌋ + 1

/-- Rounding of an exact result to `double`: 53 significant bits, the unit in the
last place never below `2^-1074` (subnormal numbers), round to nearest, ties to
even; a rounded magnitude of `2^1024` or more overflows to an infinity. -/
def rnd (q : ℚ) : F64 :=
  if q = 0 then F64.fin 0
  else
    let ulp : ℚ := two_pow (max (log2_floor |q| - 52) (-1074))
    let r : ℚ := (round_half_even (q / ulp) : ℚ) * ulp
    if two_pow 1024 ≤ |r| then F64.inf (decide (q < 0)) else F64.fin r

/-- The operator `+` of `double`. -/
def f64_add : F64 → F64 → F64
  | F64.nan, _ => F64.nan
  | _, F64.nan => F64.nan
  | F64.inf s, F64.inf t => if s = t then F64.inf s else F64.nan
  | F64.inf s, F64.fin _ => F64.inf s
  | F64.fin _, F64.inf t => F64.inf t
  | F64.fin a, F64.fin b => rnd (a + b)

/-- The operator `-` of `double`. -/
def f64_sub : F64 → F64 → F64
  | F64.nan, _ => F64.nan
  | _, F64.nan => F64.nan
  | F64.inf s, F64.inf t => if s = t then F64.nan else F64.inf s
  | F64.inf s, F64.fin _ => F64.inf s
  | F64.fin _, F64.inf t => F64.inf (!t)
  | F64.fin a, F64.fin b => rnd (a - b)

/-- The operator `*` of `double`. -/
def f64_mul : F64 → F64 → F64
  | F64.nan, _ => F64.nan
  | _, F64.nan => F64.nan
  | F64.inf s, F64.inf t => F64.inf (xor s t)
  | F64.inf s, F64.fin b => if b = 0 then F64.nan else F64.inf (xor s (decide (b < 0)))
  | F64.fin a, F64.inf t => if a = 0 then F64.nan else F64.inf (xor (decide (a < 0)) t)
  | F64.fin a, F64.fin b => rnd (a * b)

/-- The operator `/` of `double`. -/
def f64_div : F64 → F64 → F64
  | F64.nan, _ => F64.nan
  | _, F64.nan => F64.nan
  | F64.inf _, F64.inf _ => F64.nan
  | F64.inf s, F64.fin b => F64.inf (xor s (decide (b < 0)))
  | F64.fin _, F64.inf _ => F64.fin 0
  | F64.fin a, F64.fin b =>
    if b = 0 then (if a = 0 then F64.nan else F64.inf (decide (a < 0))) else rnd (a / b)

/-- The comparison `a <= b` of `double`: false when an operand is NaN. -/
def f64_le : F64 → F64 → Bool
  | F64.nan, _ => false
  | _, F64.nan => false
  | F64.inf s, F64.inf t => s || !t
  | F64.inf s, F64.fin _ => s
  | F64.fin _, F64.inf t => !t
  | F64.fin a, F64.fin b => decide (a ≤ b)

/-- The comparison `a < b` of `double`: false when an operand is NaN. -/
def f64_lt : F64 → F64 → Bool
  | F64.nan, _ => false
  | _, F64.nan => false
  | F64.inf s, F64.inf t => s && !t
  | F64.inf s, F64.fin _ => s
  | F64.fin _, F64.inf t => !t
  | F64.fin a, F64.fin b => decide (a < b)

/-- Conversion of a `double` to `size_t`: the fractional part is discarded; the
behaviour is undefined (`none`) for NaN, for an infinity and when the truncated
value is not a value of `size_t`. -/
def f64_to_size_t : F64 → Option Nat
  | F64.fin q =>
    if 0 ≤ Int.tdiv q.num (q.den : Int) ∧ Int.tdiv q.num (q.den : Int) < 2 ^ 64 then
      some (Int.tdiv q.num (q.den : Int)).toNat
    else none
  | _ => none

/-! ## The serial kernels in double precision

The kernels instantiated at `T = double`, statement by statement as the serial
kernels above, with every arithmetic operation and comparison of the source taken
in `double`. -/

/-- The constant `norm = 1.0 / (xmax - xmin)` in `double`. -/
def norm_f64 (xmin xmax : F64) : F64 := f64_div (F64.fin 1) (f64_sub xmax xmin)

/-- The inclusion test `data[i] >= xmin && data[i] < xmax` in `double`. -/
def in_range_f64 (x xmin xmax : F64) : Bool := f64_le xmin x && f64_lt x xmax

/-- The index `bin_id = (data[i] - xmin) * norm * nbins` in `double` (`nbins`, an
`int`, converts exactly), converted to `size_t`. -/
def bin_id_f64 (x : F64) (nbins : Nat) (xmin xmax : F64) : Option Nat :=
  f64_to_size_t
    (f64_mul (f64_mul (f64_sub x xmin) (norm_f64 xmin xmax)) (F64.fin (nbins : ℚ)))

/-- The accumulation loop of `c_uniform1d` in `double`. -/
def uniform1d_loop_f64 (nbins : Nat) (xmin xmax : F64) :
    List F64 → List Int → Option (List Int)
  | [], count => some count
  | x :: xs, count =>
    if !(in_range_f64 x xmin xmax) then uniform1d_loop_f64 nbins xmin xmax xs count
    else
      match bin_id_f64 x nbins xmin xmax with
      | none => none
      | some b =>
        match incr count b with
        | none => none
        | some count1 => uniform1d_loop_f64 nbins xmin xmax xs count1

/-- The kernel `c_uniform1d` at `T = double`. -/
def c_uniform1d_f64 (data : List F64) (count : List Int) (nbins : Nat) (xmin xmax : F64) :
    Option (List Int) :=
  match memset0 count nbins with
  | none => none
  | some count0 => uniform1d_loop_f64 nbins xmin xmax data count0

/-- The statement `buf[bin_id] += v` on a buffer of `double`, in `double`. -/
def add_at_f64 (buf : List F64) (b : Nat) (v : F64) : Option (List F64) :=
  match buf[b]? with
  | none => none
  | some c => some (buf.set b (f64_add c v))

/-- The accumulation loop of `c_uniform1d_weighted` in `double`. -/
def uniform1d_weighted_loop_f64 (nbins : Nat) (xmin xmax : F64) :
    List F64 → List F64 → List F64 × List F64 → Option (List F64 × List F64)
  | [], _, bufs => some bufs
  | x :: xs, weights, (count, sumw2) =>
    if !(in_range_f64 x xmin xmax) then
      uniform1d_weighted_loop_f64 nbins xmin xmax xs weights.tail (count, sumw2)
    else
      match weights with
      | [] => none
      | w :: ws =>
        match bin_id_f64 x nbins xmin xmax with
        | none => none
        | some b =>
          match add_at_f64 count b w with
          | none => none
          | some count1 =>
            match add_at_f64 sumw2 b (f64_mul w w) with
            | none => none
            | some sumw21 =>
              uniform1d_weighted_loop_f64 nbins xmin xmax xs ws (count1, sumw21)

/-- The kernel `c_uniform1d_weighted` at `T = double`. -/
def c_uniform1d_weighted_f64 (data weights : List F64) (count sumw2 : List F64) (nbins : Nat)
    (xmin xmax : F64) : Option (List F64 × List F64) :=
  match memset0 count nbins with
  | none => none
  | some count0 =>
    match memset0 sumw2 nbins with
    | none => none
    | some sumw20 => uniform1d_weighted_loop_f64 nbins xmin xmax data weights (count0, sumw20)

/-! ## Specification-side notions -/

/-- The bin width `(xmax - xmin) / nbins`. -/
def bin_width (nbins : Nat) (xmin xmax : ℚ) : ℚ := (xmax - xmin) / (nbins : ℚ)

/-- The half-open interval of bin `j`: `xmin + j*w <= x < xmin + (j+1)*w`. -/
def in_bin (x : ℚ) (j nbins : Nat) (xmin xmax : ℚ) : Bool :=
  decide (xmin + (j : ℚ) * bin_width nbins xmin xmax ≤ x) &&
    decide (x < xmin + ((j : ℚ) + 1) * bin_width nbins xmin xmax)

/-- The test "the sample is in range and its computed bin index is `j`". -/
def lands_in (j nbins : Nat) (xmin xmax : ℚ) (x : ℚ) : Bool :=
  in_range x xmin xmax && decide (bin_id x nbins xmin xmax = j)

/-- The indices `i < n` whose sample is in range and has bin index `j`. -/
def bin_indices (data : List ℚ) (j nbins : Nat) (xmin xmax : ℚ) : Finset Nat :=
  (Finset.range data.length).filter
    (fun i => lands_in j nbins xmin xmax (data.getD i 0) = true)

/-- The indices `i < n` whose sample satisfies `xmin <= data[i] < xmax`. -/
def range_indices (data : List ℚ) (xmin xmax : ℚ) : Finset Nat :=
  (Finset.range data.length).filter (fun i => xmin ≤ data.getD i 0 ∧ data.getD i 0 < xmax)

/-- The sum of `f weight[i]` over the indices `i`, taken in index order, whose
sample is in range and has bin index `j`. -/
def bin_sum (f : ℚ → ℚ) (j nbins : Nat) (xmin xmax : ℚ) (data weights : List ℚ) : ℚ :=
  (((data.zip weights).filter (fun p => lands_in j nbins xmin xmax p.1)).map
    (fun p => f p.2)).sum

/-- The test "the sample is in range and its bin index computed in `double` is
`j`". -/
def lands_in_f64 (j nbins : Nat) (xmin xmax : F64) (x : F64) : Bool :=
  in_range_f64 x xmin xmax && decide (bin_id_f64 x nbins xmin xmax = some j)

/-- The test "the bin index of the sample computed in `double` is defined and
below `nbins`". -/
def index_ok_f64 (x : F64) (nbins : Nat) (xmin xmax : F64) : Bool :=
  match bin_id_f64 x nbins xmin xmax with
  | some b => decide (b < nbins)
  | none => false

/-! ## Arithmetic of the bin index -/

theorem wrap64_add_left (a b : Int) : wrap64 (wrap64 a + b) = wrap64 (a + b) := by
  unfold wrap64; omega

theorem wrap64_add_right (a b : Int) : wrap64 (a + wrap64 b) = wrap64 (a + b) := by
  unfold wrap64; omega

theorem wrap64_wrap64 (a : Int) : wrap64 (wrap64 a) = wrap64 a := by
  unfold wrap64; omega

theorem wrap64_zero : wrap64 0 = 0 := by
  unfold wrap64; omega

theorem wrap64_one : wrap64 1 = 1 := by
  unfold wrap64; omega

theorem wrap64_of_bounds (a : Int) (h0 : -2 ^ 63 ≤ a) (h1 : a < 2 ^ 63) : wrap64 a = a := by
  unfold wrap64; omega

theorem to_size_t_eq_floor (q : ℚ) (hq : 0 ≤ q) : ((to_size_t q : Nat) : Int) = ⌊q⌋ := by
  unfold to_size_t
  have hnum : 0 ≤ q.num := Rat.num_nonneg.mpr hq
  rw [Rat.floor_def, Int.tdiv_eq_ediv hnum (Int.ofNat_nonneg _)]
  exact Int.toNat_of_nonneg (Int.ediv_nonneg hnum (Int.ofNat_nonneg _))

theorem in_range_iff (x xmin xmax : ℚ) : in_range x xmin xmax = true ↔ xmin ≤ x ∧ x < xmax := by
  simp [in_range]

theorem bin_arg_eq (x : ℚ) (nbins : Nat) (xmin xmax : ℚ) :
    (x - xmin) * norm xmin xmax * (nbins : ℚ) = (x - xmin) * (nbins : ℚ) / (xmax - xmin) := by
  unfold norm
  ring

theorem bin_arg_nonneg (x : ℚ) (nbins : Nat) (xmin xmax : ℚ) (hx : xmin < xmax) (h : xmin ≤ x) :
    0 ≤ (x - xmin) * (nbins : ℚ) / (xmax - xmin) := by
  have h1 : 0 ≤ x - xmin := by linarith
  have h2 : 0 < xmax - xmin := by linarith
  positivity

theorem bin_id_eq_floor (x : ℚ) (nbins : Nat) (xmin xmax : ℚ) (hx : xmin < xmax) (h : xmin ≤ x) :
    ((bin_id x nbins xmin xmax : Nat) : Int) = ⌊(x - xmin) * (nbins : ℚ) / (xmax - xmin)⌋ := by
  unfold bin_id
  rw [bin_arg_eq]
  exact to_size_t_eq_floor _ (bin_arg_nonneg x nbins xmin xmax hx h)

theorem bin_id_lt (x : ℚ) (nbins : Nat) (xmin xmax : ℚ) (hn : 0 < nbins) (hx : xmin < xmax)
    (h : in_range x xmin xmax = true) : bin_id x nbins xmin xmax < nbins := by
  rw [in_range_iff] at h
  have hfl := bin_id_eq_floor x nbins xmin xmax hx h.1
  have h2 : 0 < xmax - xmin := by linarith
  have hlt : (x - xmin) * (nbins : ℚ) / (xmax - xmin) < (nbins : ℚ) := by
    rw [div_lt_iff₀ h2]
    have hn' : (0 : ℚ) < nbins := by exact_mod_cast hn
    nlinarith
  have : ⌊(x - xmin) * (nbins : ℚ) / (xmax - xmin)⌋ < (nbins : Int) := by
    rw [Int.floor_lt]
    exact_mod_cast hlt
  rw [← hfl] at this
  exact_mod_cast this

theorem in_bin_iff (x : ℚ) (j nbins : Nat) (xmin xmax : ℚ) (hn : 0 < nbins) (hx : xmin < xmax) :
    in_bin x j nbins xmin xmax = true ↔
      (j : ℚ) ≤ (x - xmin) * (nbins : ℚ) / (xmax - xmin) ∧
        (x - xmin) * (nbins : ℚ) / (xmax - xmin) < (j : ℚ) + 1 := by
  have hd : 0 < xmax - xmin := by linarith
  have hn' : (0 : ℚ) < nbins := by exact_mod_cast hn
  have e1 : xmin + (j : ℚ) * ((xmax - xmin) / (nbins : ℚ)) ≤ x ↔
      (j : ℚ) ≤ (x - xmin) * (nbins : ℚ) / (xmax - xmin) := by
    rw [le_div_iff₀ hd, ← le_sub_iff_add_le', ← mul_div_assoc, div_le_iff₀ hn']
  have e2 : x < xmin + ((j : ℚ) + 1) * ((xmax - xmin) / (nbins : ℚ)) ↔
      (x - xmin) * (nbins : ℚ) / (xmax - xmin) < (j : ℚ) + 1 := by
    rw [div_lt_iff₀ hd, ← sub_lt_iff_lt_add', ← mul_div_assoc, lt_div_iff₀ hn']
  simp only [in_bin, bin_width, Bool.and_eq_true, decide_eq_true_eq, e1, e2]

theorem lands_in_iff (x : ℚ) (j nbins : Nat) (xmin xmax : ℚ) (hn : 0 < nbins) (hx : xmin < xmax)
    (hj : j < nbins) :
    lands_in j nbins xmin xmax x = true ↔ in_bin x j nbins xmin xmax = true := by
  have hd : 0 < xmax - xmin := by linarith
  have hn' : (0 : ℚ) < nbins := by exact_mod_cast hn
  rw [in_bin_iff x j nbins xmin xmax hn hx]
  simp only [lands_in, Bool.and_eq_true, decide_eq_true_eq, in_range_iff]
  constructor
  · rintro ⟨⟨h1, _⟩, hb⟩
    have hfl := bin_id_eq_floor x nbins xmin xmax hx h1
    rw [hb] at hfl
    have := Int.floor_eq_iff.mp hfl.symm
    simpa using this
  · rintro ⟨h1, h2⟩
    have hq0 : 0 ≤ (x - xmin) * (nbins : ℚ) / (xmax - xmin) :=
      le_trans (Nat.cast_nonneg j) h1
    have hxmin : xmin ≤ x := by
      by_contra hlt
      push_neg at hlt
      have : (x - xmin) * (nbins : ℚ) / (xmax - xmin) < 0 :=
        div_neg_of_neg_of_pos (mul_neg_of_neg_of_pos (by linarith) hn') hd
      linarith
    have hxmax : x < xmax := by
      have hj' : (j : ℚ) + 1 ≤ (nbins : ℚ) := by exact_mod_cast hj
      have h3 : (x - xmin) * (nbins : ℚ) / (xmax - xmin) < (nbins : ℚ) := lt_of_lt_of_le h2 hj'
      rw [div_lt_iff₀ hd] at h3
      have : x - xmin < xmax - xmin := by
        by_contra hge
        push_neg at hge
        nlinarith
      linarith
    refine ⟨⟨hxmin, hxmax⟩, ?_⟩
    have hfl := bin_id_eq_floor x nbins xmin xmax hx hxmin
    have : ⌊(x - xmin) * (nbins : ℚ) / (xmax - xmin)⌋ = (j : Int) := by
      rw [Int.floor_eq_iff]
      exact ⟨by exact_mod_cast h1, by exact_mod_cast h2⟩
    rw [this] at hfl
    exact_mod_cast hfl

/-! ## The serial counting loop -/

theorem incr_of_lt (count : List Int) (b : Nat) (h : b < count.length) :
    incr count b = some (count.set b (wrap64 (count[b] + 1))) := by
  simp [incr, List.getElem?_eq_getElem h]

theorem incr_of_le (count : List Int) (b : Nat) (h : count.length ≤ b) :
    incr count b = none := by
  simp [incr, List.getElem?_eq_none h]

theorem lands_in_of_not_in_range (j nbins : Nat) (xmin xmax x : ℚ)
    (h : in_range x xmin xmax = false) : lands_in j nbins xmin xmax x = false := by
  simp [lands_in, h]

theorem wrapped_set (count : List Int) (b : Nat) (v : Int) (hc : ∀ a ∈ count, wrap64 a = a) :
    ∀ a ∈ count.set b (wrap64 v), wrap64 a = a := by
  intro a ha
  rcases List.mem_or_eq_of_mem_set ha with h | h
  · exact hc a h
  · rw [h, wrap64_wrap64]

theorem uniform1d_loop_eq (nbins : Nat) (xmin xmax : ℚ) (data : List ℚ) :
    ∀ count : List Int, (∀ a ∈ count, wrap64 a = a) →
      (∀ x ∈ data, in_range x xmin xmax = true → bin_id x nbins xmin xmax < count.length) →
      uniform1d_loop nbins xmin xmax data count =
        some (count.mapIdx
          (fun j a => wrap64 (a + ((data.countP (lands_in j nbins xmin xmax) : Nat) : Int)))) := by
  induction data with
  | nil =>
    intro count hc _
    simp only [uniform1d_loop, Option.some.injEq]
    apply List.ext_getElem?
    intro n
    rw [List.getElem?_mapIdx]
    cases hn : count[n]? with
    | none => rfl
    | some a =>
      have := hc a (List.getElem?_mem hn)
      simp [this]
  | cons x xs ih =>
    intro count hc hsafe
    have hsafe' : ∀ y ∈ xs, in_range y xmin xmax = true →
        bin_id y nbins xmin xmax < count.length :=
      fun y hy => hsafe y (List.mem_cons_of_mem _ hy)
    cases hr : in_range x xmin xmax with
    | false =>
      simp only [uniform1d_loop, hr, Bool.not_false, if_true]
      rw [ih count hc hsafe']
      simp [List.countP_cons, lands_in_of_not_in_range _ _ _ _ _ hr]
    | true =>
      have hb := hsafe x (List.mem_cons_self _ _) hr
      simp only [uniform1d_loop, hr, Bool.not_true, incr_of_lt count _ hb]
      rw [if_neg (by simp)]
      rw [ih _ (wrapped_set count _ _ hc) (by simpa using hsafe')]
      simp only [Option.some.injEq]
      apply List.ext_getElem?
      intro n
      simp only [List.getElem?_mapIdx, List.countP_cons, lands_in, hr, Bool.true_and]
      by_cases hn : bin_id x nbins xmin xmax = n
      · subst hn
        simp [List.getElem?_set_self hb, List.getElem?_eq_getElem hb, wrap64_add_left]
        congr 1
        ring
      · simp [List.getElem?_set_ne hn, hn]

theorem uniform1d_loop_none (nbins : Nat) (xmin xmax : ℚ) (data : List ℚ) :
    ∀ count : List Int,
      (∃ x ∈ data, in_range x xmin xmax = true ∧ count.length ≤ bin_id x nbins xmin xmax) →
      uniform1d_loop nbins xmin xmax data count = none := by
  induction data with
  | nil => intro count h; simp at h
  | cons x xs ih =>
    intro count h
    obtain ⟨y, hy, hyr, hyb⟩ := h
    cases hr : in_range x xmin xmax with
    | false =>
      simp only [uniform1d_loop, hr, Bool.not_false, if_true]
      rcases List.mem_cons.mp hy with rfl | hy'
      · rw [hr] at hyr; cases hyr
      · exact ih count ⟨y, hy', hyr, hyb⟩
    | true =>
      simp only [uniform1d_loop, hr, Bool.not_true]
      rw [if_neg (by simp)]
      by_cases hb : bin_id x nbins xmin xmax < count.length
      · rw [incr_of_lt count _ hb]
        simp only
        rcases List.mem_cons.mp hy with rfl | hy'
        · omega
        · exact ih _ ⟨y, hy', hyr, by simpa using hyb⟩
      · rw [incr_of_le count _ (by omega)]

theorem memset0_of_length {α : Type} [Zero α] (buf : List α) (nbins : Nat)
    (h : buf.length = nbins) : memset0 buf nbins = some (List.replicate nbins 0) := by
  simp [memset0, h, List.drop_eq_nil_of_le (le_of_eq h)]

theorem mapIdx_replicate_zero (nbins : Nat) (f : Nat → Int) :
    (List.replicate nbins (0 : Int)).mapIdx (fun j a => wrap64 (a + f j)) =
      (List.range nbins).map (fun j => wrap64 (f j)) := by
  apply List.ext_getElem?
  intro n
  by_cases hn : n < nbins
  · simp [List.getElem?_replicate, hn, List.getElem?_range hn]
  · simp [List.getElem?_replicate, hn, List.getElem?_eq_none (l := List.range nbins) (by simpa using hn)]

/-- Closed form of `c_uniform1d` on a buffer of exactly `nbins` cells when every
in-range sample has an index inside the buffer. -/
theorem c_uniform1d_closed (data : List ℚ) (count : List Int) (nbins : Nat) (xmin xmax : ℚ)
    (hlen : count.length = nbins)
    (hsafe : ∀ x ∈ data, in_range x xmin xmax = true → bin_id x nbins xmin xmax < nbins) :
    c_uniform1d data count nbins xmin xmax =
      some ((List.range nbins).map
        (fun j => wrap64 ((data.countP (lands_in j nbins xmin xmax) : Nat) : Int))) := by
  unfold c_uniform1d
  rw [memset0_of_length count nbins hlen]
  simp only
  rw [uniform1d_loop_eq nbins xmin xmax data _ (by
    intro a ha
    rw [List.eq_of_mem_replicate ha, wrap64_zero]) (by simpa using hsafe)]
  rw [mapIdx_replicate_zero]

theorem c_uniform1d_out_of_bounds (data : List ℚ) (count : List Int) (nbins : Nat) (xmin xmax : ℚ)
    (hlen : count.length = nbins)
    (h : ∃ x ∈ data, in_range x xmin xmax = true ∧ nbins ≤ bin_id x nbins xmin xmax) :
    c_uniform1d data count nbins xmin xmax = none := by
  unfold c_uniform1d
  rw [memset0_of_length count nbins hlen]
  exact uniform1d_loop_none nbins xmin xmax data _ (by simpa using h)

theorem safe_of_valid (data : List ℚ) (nbins : Nat) (xmin xmax : ℚ) (hn : 0 < nbins)
    (hx : xmin < xmax) :
    ∀ x ∈ data, in_range x xmin xmax = true → bin_id x nbins xmin xmax < nbins :=
  fun x _ hr => bin_id_lt x nbins xmin xmax hn hx hr

/-! ## The serial weighted loop -/

theorem add_at_of_lt (buf : List ℚ) (b : Nat) (v : ℚ) (h : b < buf.length) :
    add_at buf b v = some (buf.set b (buf[b] + v)) := by
  simp [add_at, List.getElem?_eq_getElem h]

theorem bin_sum_nil (f : ℚ → ℚ) (j nbins : Nat) (xmin xmax : ℚ) (weights : List ℚ) :
    bin_sum f j nbins xmin xmax [] weights = 0 := by
  simp [bin_sum]

theorem bin_sum_cons (f : ℚ → ℚ) (j nbins : Nat) (xmin xmax : ℚ) (x w : ℚ)
    (data weights : List ℚ) :
    bin_sum f j nbins xmin xmax (x :: data) (w :: weights) =
      (if lands_in j nbins xmin xmax x = true then f w else 0) +
        bin_sum f j nbins xmin xmax data weights := by
  unfold bin_sum
  by_cases h : lands_in j nbins xmin xmax x = true
  · simp [List.filter_cons, h]
  · simp [List.filter_cons, h]

theorem mapIdx_add_zero (buf : List ℚ) : buf.mapIdx (fun _ a => a) = buf := by
  apply List.ext_getElem?
  intro n
  simp

theorem set_add_mapIdx (buf : List ℚ) (b : Nat) (v : ℚ) (g g' : Nat → ℚ) (hb : b < buf.length)
    (hg : ∀ j, g' j = (if b = j then v else 0) + g j) :
    (buf.set b (buf[b] + v)).mapIdx (fun j a => a + g j) = buf.mapIdx (fun j a => a + g' j) := by
  apply List.ext_getElem?
  intro n
  simp only [List.getElem?_mapIdx, hg]
  by_cases hn : b = n
  · subst hn
    simp [List.getElem?_set_self hb, List.getElem?_eq_getElem hb]
    ring
  · simp [List.getElem?_set_ne hn, hn]

theorem uniform1d_weighted_loop_eq (nbins : Nat) (xmin xmax : ℚ) (data : List ℚ) :
    ∀ (weights count sumw2 : List ℚ), weights.length = data.length →
      (∀ x ∈ data, in_range x xmin xmax = true →
        bin_id x nbins xmin xmax < count.length ∧ bin_id x nbins xmin xmax < sumw2.length) →
      uniform1d_weighted_loop nbins xmin xmax data weights (count, sumw2) =
        some (count.mapIdx (fun j a => a + bin_sum id j nbins xmin xmax data weights),
          sumw2.mapIdx (fun j a => a + bin_sum (fun w => w * w) j nbins xmin xmax data weights)) := by
  induction data with
  | nil =>
    intro weights count sumw2 _ _
    simp [uniform1d_weighted_loop, bin_sum_nil, mapIdx_add_zero]
  | cons x xs ih =>
    intro weights count sumw2 hlen hsafe
    cases weights with
    | nil => simp at hlen
    | cons w ws =>
      have hlen' : ws.length = xs.length := by simpa using hlen
      have hsafe' : ∀ y ∈ xs, in_range y xmin xmax = true →
          bin_id y nbins xmin xmax < count.length ∧ bin_id y nbins xmin xmax < sumw2.length :=
        fun y hy => hsafe y (List.mem_cons_of_mem _ hy)
      cases hr : in_range x xmin xmax with
      | false =>
        simp only [uniform1d_weighted_loop, hr, Bool.not_false, if_true, List.tail_cons]
        rw [ih ws count sumw2 hlen' hsafe']
        simp [bin_sum_cons, lands_in_of_not_in_range _ _ _ _ _ hr]
      | true =>
        have hb := hsafe x (List.mem_cons_self _ _) hr
        simp only [uniform1d_weighted_loop, hr, Bool.not_true]
        rw [if_neg (by simp)]
        simp only [add_at_of_lt count _ _ hb.1, add_at_of_lt sumw2 _ _ hb.2]
        rw [ih ws _ _ hlen' (by simpa using hsafe')]
        have hl : ∀ j, lands_in j nbins xmin xmax x = decide (bin_id x nbins xmin xmax = j) := by
          intro j; simp [lands_in, hr]
        rw [set_add_mapIdx count _ w _
            (fun j => bin_sum id j nbins xmin xmax (x :: xs) (w :: ws)) hb.1
            (by intro j; simp [bin_sum_cons, hl]),
          set_add_mapIdx sumw2 _ (w * w) _
            (fun j => bin_sum (fun w => w * w) j nbins xmin xmax (x :: xs) (w :: ws)) hb.2
            (by intro j; simp [bin_sum_cons, hl])]

theorem mapIdx_replicate_zero_rat (nbins : Nat) (f : Nat → ℚ) :
    (List.replicate nbins (0 : ℚ)).mapIdx (fun j a => a + f j) =
      (List.range nbins).map f := by
  apply List.ext_getElem?
  intro n
  by_cases hn : n < nbins
  · simp [List.getElem?_replicate, hn, List.getElem?_range hn]
  · simp [List.getElem?_replicate, hn, List.getElem?_eq_none (l := List.range nbins) (by simpa using hn)]

/-- Closed form of `c_uniform1d_weighted` on buffers of exactly `nbins` cells when
every in-range sample has an index inside the buffers. -/
theorem c_uniform1d_weighted_closed (data weights count sumw2 : List ℚ) (nbins : Nat)
    (xmin xmax : ℚ) (hw : weights.length = data.length) (hlen : count.length = nbins)
    (hlen2 : sumw2.length = nbins)
    (hsafe : ∀ x ∈ data, in_range x xmin xmax = true → bin_id x nbins xmin xmax < nbins) :
    c_uniform1d_weighted data weights count sumw2 nbins xmin xmax =
      some ((List.range nbins).map (fun j => bin_sum id j nbins xmin xmax data weights),
        (List.range nbins).map
          (fun j => bin_sum (fun w => w * w) j nbins xmin xmax data weights)) := by
  unfold c_uniform1d_weighted
  rw [memset0_of_length count nbins hlen, memset0_of_length sumw2 nbins hlen2]
  simp only
  rw [uniform1d_weighted_loop_eq nbins xmin xmax data weights _ _ hw (by
    intro x hx hr
    simpa using hsafe x hx hr)]
  rw [mapIdx_replicate_zero_rat, mapIdx_replicate_zero_rat]

/-- A sum over a filtered, zipped list is the sum over the selected indices. -/
theorem zip_filter_sum_eq (p : ℚ → Bool) (f : ℚ → ℚ) (data : List ℚ) :
    ∀ weights : List ℚ, weights.length = data.length →
      (((data.zip weights).filter (fun q => p q.1)).map (fun q => f q.2)).sum =
        ∑ i in (Finset.range data.length).filter (fun i => p (data.getD i 0) = true),
          f (weights.getD i 0) := by
  induction data with
  | nil => intro weights _; simp
  | cons x xs ih =>
    intro weights hlen
    cases weights with
    | nil => simp at hlen
    | cons w ws =>
      have hlen' : ws.length = xs.length := by simpa using hlen
      rw [Finset.sum_filter, List.length_cons, Finset.sum_range_succ']
      have := ih ws hlen'
      rw [Finset.sum_filter] at this
      simp only [List.getD_cons_succ, List.getD_cons_zero, List.zip_cons_cons]
      rw [← this]
      by_cases hp : p x = true
      · simp [List.filter_cons, hp, add_comm]
      · simp [List.filter_cons, hp]

theorem bin_sum_eq_sum (f : ℚ → ℚ) (j nbins : Nat) (xmin xmax : ℚ) (data weights : List ℚ)
    (hw : weights.length = data.length) :
    bin_sum f j nbins xmin xmax data weights =
      ∑ i in bin_indices data j nbins xmin xmax, f (weights.getD i 0) :=
  zip_filter_sum_eq (lands_in j nbins xmin xmax) f data weights hw

/-! ## Sums over all bins -/

theorem range_map_sum_eq {M : Type} [AddCommMonoid M] (f : Nat → M) (n : Nat) :
    ((List.range n).map f).sum = ∑ j in Finset.range n, f j := by
  induction n with
  | zero => simp
  | succ n ih => simp [List.range_succ, Finset.sum_range_succ, ih]

/-- Summing, over all keys below `n`, the contributions of the selected items with
that key gives the contributions of all selected items. -/
theorem sum_over_keys {α M : Type} [AddCommMonoid M] (p : α → Bool) (k : α → Nat) (g : α → M)
    (n : Nat) (l : List α) (hk : ∀ a ∈ l, p a = true → k a < n) :
    ∑ j in Finset.range n, ((l.filter (fun a => p a && decide (k a = j))).map g).sum =
      ((l.filter p).map g).sum := by
  induction l with
  | nil => simp
  | cons a l ih =>
    have ih' := ih (fun b hb => hk b (List.mem_cons_of_mem _ hb))
    cases hp : p a with
    | false => simpa [List.filter_cons, hp] using ih'
    | true =>
      have hka := hk a (List.mem_cons_self _ _) hp
      have : ∀ j, (((a :: l).filter (fun a => p a && decide (k a = j))).map g).sum =
          (if k a = j then g a else 0) +
            ((l.filter (fun a => p a && decide (k a = j))).map g).sum := by
        intro j
        by_cases hj : k a = j
        · simp [List.filter_cons, hp, hj]
        · simp [List.filter_cons, hp, hj]
      have hrhs : (((a :: l).filter p).map g).sum = g a + ((l.filter p).map g).sum := by
        simp [List.filter_cons, hp]
      rw [Finset.sum_congr rfl (fun j _ => this j), Finset.sum_add_distrib, ih', hrhs,
        Finset.sum_ite_eq]
      simp [hka]

theorem countP_eq_sum_ones {α : Type} (p : α → Bool) (l : List α) :
    l.countP p = ((l.filter p).map (fun _ => 1)).sum := by
  induction l with
  | nil => simp
  | cons a l ih =>
    by_cases hp : p a = true
    · simp [List.countP_cons, List.filter_cons, hp, ih, add_comm]
    · simp [List.countP_cons, List.filter_cons, hp, ih]

theorem sum_countP_lands_in (data : List ℚ) (nbins : Nat) (xmin xmax : ℚ)
    (hsafe : ∀ x ∈ data, in_range x xmin xmax = true → bin_id x nbins xmin xmax < nbins) :
    ∑ j in Finset.range nbins, data.countP (lands_in j nbins xmin xmax) =
      data.countP (fun x => in_range x xmin xmax) := by
  simp only [countP_eq_sum_ones]
  exact sum_over_keys (fun x => in_range x xmin xmax) (fun x => bin_id x nbins xmin xmax)
    (fun _ => 1) nbins data hsafe

theorem sum_bin_sum (f : ℚ → ℚ) (nbins : Nat) (xmin xmax : ℚ) (data weights : List ℚ)
    (hsafe : ∀ x ∈ data, in_range x xmin xmax = true → bin_id x nbins xmin xmax < nbins) :
    ∑ j in Finset.range nbins, bin_sum f j nbins xmin xmax data weights =
      (((data.zip weights).filter (fun q => in_range q.1 xmin xmax)).map (fun q => f q.2)).sum := by
  unfold bin_sum lands_in
  exact sum_over_keys (fun q : ℚ × ℚ => in_range q.1 xmin xmax)
    (fun q => bin_id q.1 nbins xmin xmax) (fun q => f q.2) nbins (data.zip weights)
    (fun q hq hr => hsafe q.1 (List.of_mem_zip hq).1 hr)

theorem wrap64_count (data : List ℚ) (p : ℚ → Bool) (h : data.length < 2 ^ 63) :
    wrap64 ((data.countP p : Nat) : Int) = ((data.countP p : Nat) : Int) := by
  have h1 : data.countP p ≤ data.length := List.countP_le_length p
  apply wrap64_of_bounds <;> omega

/-! ## Contract of the serial kernels -/

/-- C1: for every sample list (its length `n` is a C `int`), every `nbins > 0` and
`xmin < xmax`, on a result buffer of `nbins` cells `c_uniform1d` returns a buffer
of length `nbins` whose entry `j`, for every `j < nbins`, is the number of samples
`x` with `xmin + j*w <= x < xmin + (j+1)*w`, where `w = (xmax - xmin)/nbins`. -/
theorem c_uniform1d_counts_per_bin (data : List ℚ) (count : List Int) (nbins : Nat)
    (xmin xmax : ℚ) (hint : data.length < 2 ^ 31) (hbuf : count.length = nbins)
    (hn : 0 < nbins) (hx : xmin < xmax) :
    ∃ out, c_uniform1d data count nbins xmin xmax = some out ∧ out.length = nbins ∧
      ∀ j, j < nbins →
        out[j]? = some ((data.countP (fun x => in_bin x j nbins xmin xmax) : Nat) : Int) := by
  refine ⟨_, c_uniform1d_closed data count nbins xmin xmax hbuf
    (safe_of_valid data nbins xmin xmax hn hx), by simp, ?_⟩
  intro j hj
  have hc : data.countP (lands_in j nbins xmin xmax) =
      data.countP (fun x => in_bin x j nbins xmin xmax) := by
    apply List.countP_congr
    intro x _
    exact lands_in_iff x j nbins xmin xmax hn hx hj
  simp only [List.getElem?_map, List.getElem?_range hj, Option.map_some',
    wrap64_count data _ (by omega), hc]

/-- Witness of C1 on the five samples `0, 1, 2, 5/2, 3` with three bins on `[0, 3)`. -/
theorem c_uniform1d_counts_per_bin_witness :
    ([0, 1, 2, 5 / 2, 3] : List ℚ).length < 2 ^ 31 ∧ ([7, 7, 7] : List Int).length = 3 ∧
      0 < 3 ∧ (0 : ℚ) < 3 ∧
      ∃ out, c_uniform1d [0, 1, 2, 5 / 2, 3] [7, 7, 7] 3 0 3 = some out ∧ out.length = 3 ∧
        ∀ j, j < 3 → out[j]? =
          some ((([0, 1, 2, 5 / 2, 3] : List ℚ).countP (fun x => in_bin x j 3 0 3) : Nat) : Int) :=
  ⟨by decide, rfl, by decide, by norm_num,
    c_uniform1d_counts_per_bin [0, 1, 2, 5 / 2, 3] [7, 7, 7] 3 0 3 (by decide) rfl (by decide)
      (by norm_num)⟩

/-- Conservation of counts in exact arithmetic. For every sample list, `nbins > 0`
and `xmin < xmax`, the sum over all bins of the counts returned by `c_uniform1d`
is the number of samples `x` with `xmin <= x < xmax`. -/
theorem c_uniform1d_conservation (data : List ℚ) (count : List Int) (nbins : Nat)
    (xmin xmax : ℚ) (hint : data.length < 2 ^ 31) (hbuf : count.length = nbins)
    (hn : 0 < nbins) (hx : xmin < xmax) :
    ∃ out, c_uniform1d data count nbins xmin xmax = some out ∧
      out.sum = ((data.countP (fun x => decide (xmin ≤ x ∧ x < xmax)) : Nat) : Int) := by
  have hsafe := safe_of_valid data nbins xmin xmax hn hx
  refine ⟨_, c_uniform1d_closed data count nbins xmin xmax hbuf hsafe, ?_⟩
  have hc : data.countP (fun x => in_range x xmin xmax) =
      data.countP (fun x => decide (xmin ≤ x ∧ x < xmax)) := by
    apply List.countP_congr
    intro x _
    simp [in_range_iff]
  rw [range_map_sum_eq, ← hc, ← sum_countP_lands_in data nbins xmin xmax hsafe]
  push_cast
  exact Finset.sum_congr rfl (fun j _ => wrap64_count data _ (by omega))

/-- C3: for every sample list with an equal-length weight list, `nbins > 0` and
`xmin < xmax`, on result buffers of `nbins` cells `c_uniform1d_weighted` returns two
buffers of length `nbins` such that, for every bin `j`, `sumw[j]` is the sum of
`weight[i]` and `sumw2[j]` the sum of `weight[i]*weight[i]` over exactly the
indices `i` whose sample is in range and has bin index `j`. -/
theorem c_uniform1d_weighted_sums_per_bin (data weights count sumw2 : List ℚ) (nbins : Nat)
    (xmin xmax : ℚ) (hw : weights.length = data.length) (hbuf : count.length = nbins)
    (hbuf2 : sumw2.length = nbins) (hn : 0 < nbins) (hx : xmin < xmax) :
    ∃ out out2, c_uniform1d_weighted data weights count sumw2 nbins xmin xmax = some (out, out2) ∧
      out.length = nbins ∧ out2.length = nbins ∧
      ∀ j, j < nbins →
        out[j]? = some (∑ i in bin_indices data j nbins xmin xmax, weights.getD i 0) ∧
        out2[j]? = some (∑ i in bin_indices data j nbins xmin xmax,
          weights.getD i 0 * weights.getD i 0) := by
  refine ⟨_, _, c_uniform1d_weighted_closed data weights count sumw2 nbins xmin xmax hw hbuf hbuf2
    (safe_of_valid data nbins xmin xmax hn hx), by simp, by simp, ?_⟩
  intro j hj
  constructor
  · rw [List.getElem?_map, List.getElem?_range hj, Option.map_some',
      bin_sum_eq_sum _ j nbins xmin xmax data weights hw]
    rfl
  · rw [List.getElem?_map, List.getElem?_range hj, Option.map_some',
      bin_sum_eq_sum _ j nbins xmin xmax data weights hw]

/-- Witness of C3 on five samples with weights `1, 1, 1, 2, 5`. -/
theorem c_uniform1d_weighted_sums_per_bin_witness :
    ([1, 1, 1, 2, 5] : List ℚ).length = ([0, 1, 2, 5 / 2, 3] : List ℚ).length ∧
      ([7, 7, 7] : List ℚ).length = 3 ∧ ([9, 9, 9] : List ℚ).length = 3 ∧ 0 < 3 ∧ (0 : ℚ) < 3 ∧
      ∃ out out2, c_uniform1d_weighted [0, 1, 2, 5 / 2, 3] [1, 1, 1, 2, 5] [7, 7, 7] [9, 9, 9]
          3 0 3 = some (out, out2) ∧
        out.length = 3 ∧ out2.length = 3 ∧
        ∀ j, j < 3 →
          out[j]? = some (∑ i in bin_indices [0, 1, 2, 5 / 2, 3] j 3 0 3,
            ([1, 1, 1, 2, 5] : List ℚ).getD i 0) ∧
          out2[j]? = some (∑ i in bin_indices [0, 1, 2, 5 / 2, 3] j 3 0 3,
            ([1, 1, 1, 2, 5] : List ℚ).getD i 0 * ([1, 1, 1, 2, 5] : List ℚ).getD i 0) :=
  ⟨rfl, rfl, rfl, by decide, by norm_num,
    c_uniform1d_weighted_sums_per_bin [0, 1, 2, 5 / 2, 3] [1, 1, 1, 2, 5] [7, 7, 7] [9, 9, 9]
      3 0 3 rfl rfl rfl (by decide) (by norm_num)⟩

/-- C4: conservation of weight. For every sample list with an equal-length weight
list, `nbins > 0` and `xmin < xmax`, the sum over all bins of `sumw` returned by
`c_uniform1d_weighted` is the sum of `weight[i]` over the indices `i` with
`xmin <= sample[i] < xmax`. -/
theorem c_uniform1d_weighted_conservation (data weights count sumw2 : List ℚ) (nbins : Nat)
    (xmin xmax : ℚ) (hw : weights.length = data.length) (hbuf : count.length = nbins)
    (hbuf2 : sumw2.length = nbins) (hn : 0 < nbins) (hx : xmin < xmax) :
    ∃ out out2, c_uniform1d_weighted data weights count sumw2 nbins xmin xmax = some (out, out2) ∧
      out.sum = ∑ i in range_indices data xmin xmax, weights.getD i 0 := by
  have hsafe := safe_of_valid data nbins xmin xmax hn hx
  refine ⟨_, _, c_uniform1d_weighted_closed data weights count sumw2 nbins xmin xmax hw hbuf hbuf2
    hsafe, ?_⟩
  rw [range_map_sum_eq, sum_bin_sum id nbins xmin xmax data weights hsafe,
    zip_filter_sum_eq (fun x => in_range x xmin xmax) id data weights hw]
  unfold range_indices
  simp only [in_range_iff, id]

/-- Witness of C4 on five samples with weights `1, 1, 1, 2, 5`. -/
theorem c_uniform1d_weighted_conservation_witness :
    ([1, 1, 1, 2, 5] : List ℚ).length = ([0, 1, 2, 5 / 2, 3] : List ℚ).length ∧
      ([7, 7, 7] : List ℚ).length = 3 ∧ ([9, 9, 9] : List ℚ).length = 3 ∧ 0 < 3 ∧ (0 : ℚ) < 3 ∧
      ∃ out out2, c_uniform1d_weighted [0, 1, 2, 5 / 2, 3] [1, 1, 1, 2, 5] [7, 7, 7] [9, 9, 9]
          3 0 3 = some (out, out2) ∧
        out.sum = ∑ i in range_indices [0, 1, 2, 5 / 2, 3] 0 3,
          ([1, 1, 1, 2, 5] : List ℚ).getD i 0 :=
  ⟨rfl, rfl, rfl, by decide, by norm_num,
    c_uniform1d_weighted_conservation [0, 1, 2, 5 / 2, 3] [1, 1, 1, 2, 5] [7, 7, 7] [9, 9, 9]
      3 0 3 rfl rfl rfl (by decide) (by norm_num)⟩

theorem zipWith_range_map {β : Type} (op : β → β → β) (f g : Nat → β) (n : Nat) :
    List.zipWith op ((List.range n).map f) ((List.range n).map g) =
      (List.range n).map (fun j => op (f j) (g j)) := by
  rw [List.zipWith_map, List.zipWith_same]

theorem bin_sum_append (f : ℚ → ℚ) (j nbins : Nat) (xmin xmax : ℚ) (a b wa wb : List ℚ)
    (h : wa.length = a.length) :
    bin_sum f j nbins xmin xmax (a ++ b) (wa ++ wb) =
      bin_sum f j nbins xmin xmax a wa + bin_sum f j nbins xmin xmax b wb := by
  unfold bin_sum
  rw [List.zip_append h.symm, List.filter_append, List.map_append, List.sum_append]

/-- Additivity over a split of the input in exact arithmetic. For sample lists
`a` and `b`, `nbins > 0` and `xmin < xmax`, `c_uniform1d (a ++ b)` is the element-wise sum of
`c_uniform1d a` and `c_uniform1d b`; and with the weights split at the same
position, both buffers of `c_uniform1d_weighted (a ++ b) (wa ++ wb)` are the
element-wise sums of those of `c_uniform1d_weighted a wa` and
`c_uniform1d_weighted b wb`. -/
theorem c_uniform1d_additive (a b wa wb : List ℚ) (count : List Int) (sumw sumw2 : List ℚ)
    (nbins : Nat) (xmin xmax : ℚ) (hint : (a ++ b).length < 2 ^ 31)
    (hwa : wa.length = a.length) (hwb : wb.length = b.length) (hbuf : count.length = nbins)
    (hbufw : sumw.length = nbins) (hbufw2 : sumw2.length = nbins) (hn : 0 < nbins)
    (hx : xmin < xmax) :
    (∃ ra rb, c_uniform1d a count nbins xmin xmax = some ra ∧
      c_uniform1d b count nbins xmin xmax = some rb ∧
      c_uniform1d (a ++ b) count nbins xmin xmax = some (List.zipWith (· + ·) ra rb)) ∧
    (∃ sa sa2 sb sb2,
      c_uniform1d_weighted a wa sumw sumw2 nbins xmin xmax = some (sa, sa2) ∧
      c_uniform1d_weighted b wb sumw sumw2 nbins xmin xmax = some (sb, sb2) ∧
      c_uniform1d_weighted (a ++ b) (wa ++ wb) sumw sumw2 nbins xmin xmax =
        some (List.zipWith (· + ·) sa sb, List.zipWith (· + ·) sa2 sb2)) := by
  have hla : a.length < 2 ^ 63 := by simp at hint; omega
  have hlb : b.length < 2 ^ 63 := by simp at hint; omega
  have hlab : (a ++ b).length < 2 ^ 63 := by omega
  constructor
  · refine ⟨_, _, c_uniform1d_closed a count nbins xmin xmax hbuf
      (safe_of_valid a nbins xmin xmax hn hx),
      c_uniform1d_closed b count nbins xmin xmax hbuf (safe_of_valid b nbins xmin xmax hn hx), ?_⟩
    rw [c_uniform1d_closed (a ++ b) count nbins xmin xmax hbuf
      (safe_of_valid (a ++ b) nbins xmin xmax hn hx), zipWith_range_map]
    refine congrArg some (List.map_congr_left ?_)
    intro j _
    rw [wrap64_count _ _ hla, wrap64_count _ _ hlb, wrap64_count _ _ hlab, List.countP_append]
    push_cast
    rfl
  · refine ⟨_, _, _, _,
      c_uniform1d_weighted_closed a wa sumw sumw2 nbins xmin xmax hwa hbufw hbufw2
        (safe_of_valid a nbins xmin xmax hn hx),
      c_uniform1d_weighted_closed b wb sumw sumw2 nbins xmin xmax hwb hbufw hbufw2
        (safe_of_valid b nbins xmin xmax hn hx), ?_⟩
    rw [c_uniform1d_weighted_closed (a ++ b) (wa ++ wb) sumw sumw2 nbins xmin xmax
      (by simp [hwa, hwb]) hbufw hbufw2 (safe_of_valid (a ++ b) nbins xmin xmax hn hx),
      zipWith_range_map, zipWith_range_map]
    simp only [bin_sum_append _ _ nbins xmin xmax a b wa wb hwa]

/-- Boundary exclusion in exact arithmetic. For `nbins > 0` and `xmin < xmax`, the
histogram of the one-element list `[xmax]` is all zero, and the histogram of `[xmin]` is `1` at
index `0` and `0` elsewhere. -/
theorem c_uniform1d_boundary (count : List Int) (nbins : Nat) (xmin xmax : ℚ)
    (hbuf : count.length = nbins) (hn : 0 < nbins) (hx : xmin < xmax) :
    c_uniform1d [xmax] count nbins xmin xmax = some (List.replicate nbins 0) ∧
      c_uniform1d [xmin] count nbins xmin xmax = some ((List.replicate nbins 0).set 0 1) := by
  have hmax : in_range xmax xmin xmax = false := by simp [in_range]
  have hmin : in_range xmin xmin xmax = true := by simp [in_range, hx]
  have hb : bin_id xmin nbins xmin xmax = 0 := by simp [bin_id, to_size_t]
  constructor
  · simp [c_uniform1d, memset0_of_length count nbins hbuf, uniform1d_loop, hmax]
  · simp [c_uniform1d, memset0_of_length count nbins hbuf, uniform1d_loop, hmin, hb,
      incr_of_lt (List.replicate nbins 0) 0 (by simpa using hn), wrap64_one]

/-- C9: in-bounds indexing. For `nbins > 0` and `xmin < xmax`, every `x` with
`xmin <= x < xmax` has a bin index `trunc((x - xmin) * (1/(xmax - xmin)) * nbins)`
strictly below `nbins`; hence on buffers of `nbins` cells the bounds-error branch
is never taken: `c_uniform1d` and `c_uniform1d_weighted` return a result for every
sample list. -/
theorem bin_id_in_bounds (nbins : Nat) (xmin xmax : ℚ) (hn : 0 < nbins) (hx : xmin < xmax) :
    (∀ x : ℚ, xmin ≤ x → x < xmax →
      to_size_t ((x - xmin) * (1 / (xmax - xmin)) * (nbins : ℚ)) < nbins ∧
      bin_id x nbins xmin xmax = to_size_t ((x - xmin) * (1 / (xmax - xmin)) * (nbins : ℚ))) ∧
    (∀ (data : List ℚ) (count : List Int), count.length = nbins →
      (c_uniform1d data count nbins xmin xmax).isSome = true) ∧
    (∀ data weights count sumw2 : List ℚ, weights.length = data.length →
      count.length = nbins → sumw2.length = nbins →
      (c_uniform1d_weighted data weights count sumw2 nbins xmin xmax).isSome = true) := by
  refine ⟨?_, ?_, ?_⟩
  · intro x h1 h2
    exact ⟨bin_id_lt x nbins xmin xmax hn hx ((in_range_iff x xmin xmax).mpr ⟨h1, h2⟩), rfl⟩
  · intro data count hbuf
    rw [c_uniform1d_closed data count nbins xmin xmax hbuf
      (safe_of_valid data nbins xmin xmax hn hx)]
    rfl
  · intro data weights count sumw2 hw hbuf hbuf2
    rw [c_uniform1d_weighted_closed data weights count sumw2 nbins xmin xmax hw hbuf hbuf2
      (safe_of_valid data nbins xmin xmax hn hx)]
    rfl

/-- Witness of C9 with three bins on `[0, 3)`. -/
theorem bin_id_in_bounds_witness :
    0 < 3 ∧ (0 : ℚ) < 3 ∧
    ((∀ x : ℚ, 0 ≤ x → x < 3 →
      to_size_t ((x - 0) * (1 / (3 - 0)) * ((3 : Nat) : ℚ)) < 3 ∧
      bin_id x 3 0 3 = to_size_t ((x - 0) * (1 / (3 - 0)) * ((3 : Nat) : ℚ))) ∧
    (∀ (data : List ℚ) (count : List Int), count.length = 3 →
      (c_uniform1d data count 3 0 3).isSome = true) ∧
    (∀ data weights count sumw2 : List ℚ, weights.length = data.length →
      count.length = 3 → sumw2.length = 3 →
      (c_uniform1d_weighted data weights count sumw2 3 0 3).isSome = true)) :=
  ⟨by decide, by norm_num, bin_id_in_bounds 3 0 3 (by decide) (by norm_num)⟩

/-- C10: bin index formula. For `nbins > 0`, `xmin < xmax` and every in-range `x`,
the value `(x - xmin) * (1/(xmax - xmin)) * nbins` is non-negative and its
truncation toward zero, the index computed by the code, is
`floor((x - xmin) * nbins / (xmax - xmin))`. -/
theorem bin_id_floor_formula (x : ℚ) (nbins : Nat) (xmin xmax : ℚ) (_hn : 0 < nbins)
    (hx : xmin < xmax) (h1 : xmin ≤ x) (_h2 : x < xmax) :
    0 ≤ (x - xmin) * (1 / (xmax - xmin)) * (nbins : ℚ) ∧
      bin_id x nbins xmin xmax = to_size_t ((x - xmin) * (1 / (xmax - xmin)) * (nbins : ℚ)) ∧
      ((bin_id x nbins xmin xmax : Nat) : Int) =
        ⌊(x - xmin) * (nbins : ℚ) / (xmax - xmin)⌋ := by
  refine ⟨?_, rfl, bin_id_eq_floor x nbins xmin xmax hx h1⟩
  have := bin_arg_nonneg x nbins xmin xmax hx h1
  rwa [← bin_arg_eq, norm] at this

/-- Witness of C10: the sample `5/2` with three bins on `[0, 3)`. -/
theorem bin_id_floor_formula_witness :
    0 < 3 ∧ (0 : ℚ) < 3 ∧ (0 : ℚ) ≤ 5 / 2 ∧ (5 / 2 : ℚ) < 3 ∧
      (0 ≤ ((5 / 2 : ℚ) - 0) * (1 / (3 - 0)) * ((3 : Nat) : ℚ) ∧
      bin_id (5 / 2) 3 0 3 = to_size_t (((5 / 2 : ℚ) - 0) * (1 / (3 - 0)) * ((3 : Nat) : ℚ)) ∧
      ((bin_id (5 / 2) 3 0 3 : Nat) : Int) = ⌊((5 / 2 : ℚ) - 0) * ((3 : Nat) : ℚ) / (3 - 0)⌋) :=
  ⟨by decide, by norm_num, by norm_num, by norm_num,
    bin_id_floor_formula (5 / 2) 3 0 3 (by decide) (by norm_num) (by norm_num) (by norm_num)⟩

/-! ## The thread-parallel counting kernel -/

theorem merge_counts_upto (count count_priv : List Int) (k : Nat) (hk : k ≤ count.length)
    (hp : k ≤ count_priv.length) :
    (List.range k).foldlM (merge_step count_priv) count =
      some (count.mapIdx (fun j c => if j < k then wrap64 (c + count_priv.getD j 0) else c)) := by
  induction k with
  | zero =>
    simp only [List.range_zero, List.foldlM_nil, Nat.not_lt_zero, if_false]
    refine congrArg some (List.ext_getElem? fun n => ?_)
    simp
  | succ k ih =>
    rw [List.range_succ, List.foldlM_append, ih (by omega) (by omega)]
    have hk' : k < count.length := by omega
    have hp' : k < count_priv.length := by omega
    simp only [Option.bind_eq_bind, Option.some_bind, List.foldlM_cons, List.foldlM_nil,
      merge_step, List.getElem?_mapIdx, List.getElem?_eq_getElem hk', List.getElem?_eq_getElem hp',
      Option.map_some', lt_irrefl, if_false, Option.bind_some]
    refine congrArg some (List.ext_getElem? fun n => ?_)
    by_cases hn : k = n
    · subst hn
      rw [List.getElem?_set_self (by simpa using hk')]
      simp [List.getElem?_eq_getElem hk', List.getElem?_eq_getElem hp']
    · rw [List.getElem?_set_ne hn]
      simp only [List.getElem?_mapIdx]
      have : (n < k + 1) ↔ (n < k) := by omega
      simp only [this]

theorem merge_counts_eq (count count_priv : List Int) (nbins : Nat) (hc : count.length = nbins)
    (hp : count_priv.length = nbins) :
    merge_counts count count_priv nbins =
      some (count.mapIdx (fun j c => wrap64 (c + count_priv.getD j 0))) := by
  unfold merge_counts
  rw [merge_counts_upto count count_priv nbins (by omega) (by omega)]
  refine congrArg some (List.ext_getElem? fun n => ?_)
  simp only [List.getElem?_mapIdx]
  by_cases hn : n < nbins
  · simp [hn]
  · rw [List.getElem?_eq_none (by omega)]
    rfl

theorem thread_slice_nil {α : Type} (owner : List Nat) (t : Nat) :
    thread_slice ([] : List α) owner t = [] := by
  simp [thread_slice]

theorem thread_slice_cons {α : Type} (x : α) (xs : List α) (o : Nat) (os : List Nat) (t : Nat) :
    thread_slice (x :: xs) (o :: os) t =
      if o = t then x :: thread_slice xs os t else thread_slice xs os t := by
  by_cases h : o = t
  · simp [thread_slice, List.filter_cons, h]
  · simp [thread_slice, List.filter_cons, h]

theorem mem_of_mem_thread_slice {α : Type} (items : List α) (owner : List Nat) (t : Nat) (x : α)
    (h : x ∈ thread_slice items owner t) : x ∈ items := by
  unfold thread_slice at h
  obtain ⟨q, hq, rfl⟩ := List.mem_map.mp h
  exact (List.of_mem_zip (List.mem_filter.mp hq).1).1

theorem exists_thread_slice_of_mem {α : Type} (items : List α) :
    ∀ (owner : List Nat), owner.length = items.length → ∀ x ∈ items,
      ∃ t ∈ owner, x ∈ thread_slice items owner t := by
  induction items with
  | nil => intro _ _ x hx; simp at hx
  | cons y ys ih =>
    intro owner hlen x hx
    cases owner with
    | nil => simp at hlen
    | cons o os =>
      rcases List.mem_cons.mp hx with rfl | hx'
      · exact ⟨o, List.mem_cons_self _ _, by simp [thread_slice_cons]⟩
      · obtain ⟨t, ht, hmem⟩ := ih os (by simpa using hlen) x hx'
        refine ⟨t, List.mem_cons_of_mem _ ht, ?_⟩
        rw [thread_slice_cons]
        split
        · exact List.mem_cons_of_mem _ hmem
        · exact hmem

theorem sum_ite_eq_of_nodup {M : Type} [AddCommMonoid M] (order : List Nat) (o : Nat) (v : M)
    (hnd : order.Nodup) (ho : o ∈ order) :
    (order.map (fun t => if o = t then v else 0)).sum = v := by
  rw [← List.sum_toFinset _ hnd, Finset.sum_ite_eq]
  simp [ho]

theorem list_sum_map_add {M : Type} [AddCommMonoid M] (order : List Nat) (f g : Nat → M) :
    (order.map (fun t => f t + g t)).sum = (order.map f).sum + (order.map g).sum := by
  induction order with
  | nil => simp
  | cons t ts ih =>
    simp only [List.map_cons, List.sum_cons, ih]
    abel

/-- The contributions of the slices of the threads of a team add up to the
contribution of the whole list. -/
theorem sum_thread_slices {α M : Type} [AddCommMonoid M] (h : α → M) (order : List Nat)
    (hnd : order.Nodup) (items : List α) :
    ∀ owner : List Nat, owner.length = items.length → (∀ t ∈ owner, t ∈ order) →
      (order.map (fun t => ((thread_slice items owner t).map h).sum)).sum =
        (items.map h).sum := by
  induction items with
  | nil => intro owner _ _; simp [thread_slice_nil]
  | cons x xs ih =>
    intro owner hlen hmem
    cases owner with
    | nil => simp at hlen
    | cons o os =>
      have e : ∀ t, ((thread_slice (x :: xs) (o :: os) t).map h).sum =
          (if o = t then h x else 0) + ((thread_slice xs os t).map h).sum := by
        intro t
        rw [thread_slice_cons]
        split <;> simp
      simp only [e, list_sum_map_add, List.map_cons, List.sum_cons]
      rw [sum_ite_eq_of_nodup order o (h x) hnd (hmem o (List.mem_cons_self _ _)),
        ih os (by simpa using hlen) (fun t ht => hmem t (List.mem_cons_of_mem _ ht))]

theorem countP_eq_sum_map {α : Type} (p : α → Bool) (l : List α) :
    l.countP p = (l.map (fun x => if p x = true then 1 else 0)).sum := by
  induction l with
  | nil => simp
  | cons a l ih =>
    by_cases hp : p a = true
    · simp [List.countP_cons, hp, ih, add_comm]
    · simp [List.countP_cons, hp, ih]

theorem sum_countP_thread_slices (p : ℚ → Bool) (data : List ℚ) (owner order : List Nat)
    (hs : valid_schedule data.length owner order) :
    (order.map (fun t => (thread_slice data owner t).countP p)).sum = data.countP p := by
  simp only [countP_eq_sum_map]
  exact sum_thread_slices _ order hs.2.1 data owner hs.1 hs.2.2

theorem wrapped_mapIdx (l : List Int) (g : Nat → Int → Int) :
    ∀ a ∈ l.mapIdx (fun j c => wrap64 (g j c)), wrap64 a = a := by
  intro a ha
  obtain ⟨n, hn⟩ := List.mem_iff_getElem?.mp ha
  rw [List.getElem?_mapIdx] at hn
  cases hl : l[n]? with
  | none => rw [hl] at hn; cases hn
  | some c =>
    rw [hl] at hn
    simp only [Option.map_some', Option.some.injEq] at hn
    rw [← hn, wrap64_wrap64]

theorem wrapped_replicate_zero (nbins : Nat) :
    ∀ a ∈ List.replicate nbins (0 : Int), wrap64 a = a := by
  intro a ha
  rw [List.eq_of_mem_replicate ha, wrap64_zero]

theorem wrap64_merge (c x y : Int) : wrap64 (wrap64 (c + wrap64 x) + y) = wrap64 (c + (x + y)) := by
  unfold wrap64; omega

theorem omp_region_eq (nbins : Nat) (xmin xmax : ℚ) (data : List ℚ) (owner order : List Nat) :
    ∀ count : List Int, count.length = nbins → (∀ a ∈ count, wrap64 a = a) →
      (∀ t ∈ order, ∀ x ∈ thread_slice data owner t, in_range x xmin xmax = true →
        bin_id x nbins xmin xmax < nbins) →
      omp_region nbins xmin xmax data owner order count =
        some (count.mapIdx (fun j c => wrap64 (c +
          (((order.map (fun t =>
            (thread_slice data owner t).countP (lands_in j nbins xmin xmax))).sum : Nat) :
              Int)))) := by
  induction order with
  | nil =>
    intro count _ hc _
    simp only [omp_region, List.map_nil, List.sum_nil, Nat.cast_zero, add_zero]
    refine congrArg some (List.ext_getElem? fun n => ?_)
    rw [List.getElem?_mapIdx]
    cases hn : count[n]? with
    | none => rfl
    | some a => simp [hc a (List.getElem?_mem hn)]
  | cons t ts ih =>
    intro count hlen hc hsafe
    have hloop := uniform1d_loop_eq nbins xmin xmax (thread_slice data owner t)
      (new_zeroed nbins) (wrapped_replicate_zero nbins)
      (by simpa [new_zeroed] using hsafe t (List.mem_cons_self _ _))
    simp only [new_zeroed] at hloop
    rw [mapIdx_replicate_zero] at hloop
    simp only [omp_region, new_zeroed, hloop]
    rw [merge_counts_eq count _ nbins hlen (by simp)]
    simp only
    rw [ih _ (by simpa using hlen) (wrapped_mapIdx count _)
      (fun t' ht' => hsafe t' (List.mem_cons_of_mem _ ht'))]
    refine congrArg some (List.ext_getElem? fun n => ?_)
    simp only [List.getElem?_mapIdx, Option.map_map]
    cases hn : count[n]? with
    | none => rfl
    | some c =>
      have hlt : n < nbins := by
        have := (List.getElem?_eq_some_iff.mp hn).1
        omega
      simp only [Option.map_some', Function.comp_apply, Option.some.injEq, List.map_cons,
        List.sum_cons, Nat.cast_add]
      have hp : ((List.range nbins).map (fun j => wrap64
          (((thread_slice data owner t).countP (lands_in j nbins xmin xmax) : Nat) : Int))).getD
            n 0 =
          wrap64 (((thread_slice data owner t).countP (lands_in n nbins xmin xmax) : Nat) :
            Int) := by
        rewrite [List.getD_eq_getElem?_getD, List.getElem?_map, List.getElem?_range hlt,
          Option.map_some', Option.getD_some]
        exact Eq.refl _
      rewrite [hp, wrap64_merge]
      exact Eq.refl _

theorem omp_region_none (nbins : Nat) (xmin xmax : ℚ) (data : List ℚ) (owner : List Nat) (t : Nat)
    (ht : uniform1d_loop nbins xmin xmax (thread_slice data owner t) (new_zeroed nbins) = none) :
    ∀ (order : List Nat) (count : List Int), t ∈ order →
      omp_region nbins xmin xmax data owner order count = none := by
  intro order
  induction order with
  | nil => intro _ h; simp at h
  | cons s ss ih =>
    intro count hmem
    simp only [omp_region]
    cases hs : uniform1d_loop nbins xmin xmax (thread_slice data owner s) (new_zeroed nbins) with
    | none => rfl
    | some count_priv =>
      simp only
      cases hm : merge_counts count count_priv nbins with
      | none => rfl
      | some count1 =>
        simp only
        rcases List.mem_cons.mp hmem with rfl | h'
        · rw [ht] at hs; cases hs
        · exact ih count1 h'

/-- C5: serial/parallel equivalence for counts. For every input with a result
buffer of `nbins` cells and every schedule of the parallel region (any
assignment `owner` of the loop iterations to threads, any order `order` in which
the threads of the team merge their private buffers), `c_uniform1d_omp` returns
exactly what `c_uniform1d` returns. -/
theorem c_uniform1d_omp_eq_serial (data : List ℚ) (count : List Int) (nbins : Nat)
    (xmin xmax : ℚ) (owner order : List Nat) (hbuf : count.length = nbins)
    (hs : valid_schedule data.length owner order) :
    c_uniform1d_omp data count nbins xmin xmax owner order =
      c_uniform1d data count nbins xmin xmax := by
  by_cases hsafe : ∀ x ∈ data, in_range x xmin xmax = true → bin_id x nbins xmin xmax < nbins
  · rw [c_uniform1d_closed data count nbins xmin xmax hbuf hsafe]
    unfold c_uniform1d_omp
    rw [memset0_of_length count nbins hbuf]
    simp only
    rw [omp_region_eq nbins xmin xmax data owner order _ (by simp) (wrapped_replicate_zero nbins)
      (fun t _ x hx => hsafe x (mem_of_mem_thread_slice data owner t x hx)),
      mapIdx_replicate_zero]
    simp only [sum_countP_thread_slices _ data owner order hs]
  · push_neg at hsafe
    obtain ⟨x, hx, hr, hb⟩ := hsafe
    rw [c_uniform1d_out_of_bounds data count nbins xmin xmax hbuf ⟨x, hx, hr, hb⟩]
    obtain ⟨t, ht, hxt⟩ := exists_thread_slice_of_mem data owner hs.1 x hx
    unfold c_uniform1d_omp
    rw [memset0_of_length count nbins hbuf]
    exact omp_region_none nbins xmin xmax data owner t
      (uniform1d_loop_none nbins xmin xmax _ _ ⟨x, hxt, hr, by simpa [new_zeroed] using hb⟩)
      order _ (hs.2.2 t ht)

/-- Witness of C5: five samples shared by three threads that merge in the order
`2, 0, 1`. -/
theorem c_uniform1d_omp_eq_serial_witness :
    ([7, 7, 7] : List Int).length = 3 ∧
      valid_schedule ([0, 1, 2, 5 / 2, 3] : List ℚ).length [0, 1, 2, 0, 1] [2, 0, 1] ∧
      c_uniform1d_omp [0, 1, 2, 5 / 2, 3] [7, 7, 7] 3 0 3 [0, 1, 2, 0, 1] [2, 0, 1] =
        c_uniform1d [0, 1, 2, 5 / 2, 3] [7, 7, 7] 3 0 3 :=
  ⟨rfl, by decide,
    c_uniform1d_omp_eq_serial [0, 1, 2, 5 / 2, 3] [7, 7, 7] 3 0 3 [0, 1, 2, 0, 1] [2, 0, 1] rfl
      (by decide)⟩

/-! ## The thread-parallel weighted kernel -/

theorem merge_weighted_upto (bufs priv : List ℚ × List ℚ) (k : Nat)
    (h1 : k ≤ bufs.1.length) (h2 : k ≤ bufs.2.length) (h3 : k ≤ priv.1.length)
    (h4 : k ≤ priv.2.length) :
    (List.range k).foldlM (merge_step_weighted priv) bufs =
      some (bufs.1.mapIdx (fun j c => if j < k then c + priv.1.getD j 0 else c),
        bufs.2.mapIdx (fun j c => if j < k then c + priv.2.getD j 0 else c)) := by
  induction k with
  | zero =>
    simp only [List.range_zero, List.foldlM_nil, Nat.not_lt_zero, if_false, mapIdx_add_zero]
    rfl
  | succ k ih =>
    rw [List.range_succ, List.foldlM_append, ih (by omega) (by omega) (by omega) (by omega)]
    have h1' : k < bufs.1.length := by omega
    have h2' : k < bufs.2.length := by omega
    have h3' : k < priv.1.length := by omega
    have h4' : k < priv.2.length := by omega
    simp only [Option.bind_eq_bind, Option.some_bind, List.foldlM_cons, List.foldlM_nil,
      merge_step_weighted, List.getElem?_mapIdx, List.getElem?_eq_getElem h1',
      List.getElem?_eq_getElem h2', List.getElem?_eq_getElem h3', List.getElem?_eq_getElem h4',
      Option.map_some', lt_irrefl, if_false, Option.bind_some]
    have key : ∀ (b p : List ℚ) (hb : k < b.length) (hp : k < p.length),
        (b.mapIdx (fun j c => if j < k then c + p.getD j 0 else c)).set k (b[k] + p[k]) =
          b.mapIdx (fun j c => if j < k + 1 then c + p.getD j 0 else c) := by
      intro b p hb hp
      refine List.ext_getElem? fun n => ?_
      by_cases hn : k = n
      · subst hn
        rw [List.getElem?_set_self (by simpa using hb)]
        simp [List.getElem?_eq_getElem hb, List.getElem?_eq_getElem hp]
      · rw [List.getElem?_set_ne hn]
        simp only [List.getElem?_mapIdx]
        have : (n < k + 1) ↔ (n < k) := by omega
        simp only [this]
    rw [key bufs.1 priv.1 h1' h3', key bufs.2 priv.2 h2' h4']
    rfl

theorem merge_weighted_eq (bufs priv : List ℚ × List ℚ) (nbins : Nat)
    (h1 : bufs.1.length = nbins) (h2 : bufs.2.length = nbins) (h3 : priv.1.length = nbins)
    (h4 : priv.2.length = nbins) :
    merge_weighted bufs priv nbins =
      some (bufs.1.mapIdx (fun j c => c + priv.1.getD j 0),
        bufs.2.mapIdx (fun j c => c + priv.2.getD j 0)) := by
  unfold merge_weighted
  rw [merge_weighted_upto bufs priv nbins (by omega) (by omega) (by omega) (by omega)]
  have key : ∀ (b p : List ℚ), b.length = nbins →
      b.mapIdx (fun j c => if j < nbins then c + p.getD j 0 else c) =
        b.mapIdx (fun j c => c + p.getD j 0) := by
    intro b p hb
    refine List.ext_getElem? fun n => ?_
    simp only [List.getElem?_mapIdx]
    by_cases hn : n < nbins
    · simp [hn]
    · rw [List.getElem?_eq_none (by omega)]
      rfl
  rw [key _ _ h1, key _ _ h2]

theorem uniform1d_loop_filter (nbins : Nat) (xmin xmax : ℚ) (data : List ℚ) :
    ∀ count : List Int,
      uniform1d_loop nbins xmin xmax data count =
        uniform1d_loop nbins xmin xmax (data.filter (fun x => in_range x xmin xmax)) count := by
  induction data with
  | nil => intro count; rfl
  | cons x xs ih =>
    intro count
    cases hr : in_range x xmin xmax with
    | false =>
      rw [List.filter_cons_of_neg (by simp [hr])]
      simp only [uniform1d_loop, hr, Bool.not_false, if_true]
      exact ih count
    | true =>
      rw [List.filter_cons_of_pos (by simp [hr])]
      simp only [uniform1d_loop, hr, Bool.not_true]
      rw [if_neg (by simp), if_neg (by simp)]
      cases incr count (bin_id x nbins xmin xmax) with
      | none => rfl
      | some count1 => exact ih count1

theorem uniform1d_weighted_loop_filter (nbins : Nat) (xmin xmax : ℚ) (data : List ℚ) :
    ∀ (weights : List ℚ) (bufs : List ℚ × List ℚ), weights.length = data.length →
      uniform1d_weighted_loop nbins xmin xmax data weights bufs =
        uniform1d_weighted_loop nbins xmin xmax
          (((data.zip weights).filter (fun p => in_range p.1 xmin xmax)).map Prod.fst)
          (((data.zip weights).filter (fun p => in_range p.1 xmin xmax)).map Prod.snd) bufs := by
  induction data with
  | nil => intro weights bufs _; simp [uniform1d_weighted_loop]
  | cons x xs ih =>
    intro weights bufs hw
    obtain ⟨count, sumw2⟩ := bufs
    cases weights with
    | nil => simp at hw
    | cons w ws =>
      have hw' : ws.length = xs.length := by simpa using hw
      cases hr : in_range x xmin xmax with
      | false =>
        rw [List.zip_cons_cons, List.filter_cons_of_neg (by simp [hr])]
        simp only [uniform1d_weighted_loop, hr, Bool.not_false, if_true, List.tail_cons]
        exact ih ws (count, sumw2) hw'
      | true =>
        rw [List.zip_cons_cons, List.filter_cons_of_pos (by simp [hr])]
        simp only [List.map_cons, uniform1d_weighted_loop, hr, Bool.not_true]
        rw [if_neg (by simp), if_neg (by simp)]
        cases add_at count (bin_id x nbins xmin xmax) w with
        | none => rfl
        | some count1 =>
          simp only
          cases add_at sumw2 (bin_id x nbins xmin xmax) (w * w) with
          | none => rfl
          | some sumw21 => exact ih ws (count1, sumw21) hw'

theorem in_range_eq_decide (xmin xmax : ℚ) :
    (fun x : ℚ => in_range x xmin xmax) = (fun x => decide (xmin ≤ x ∧ x < xmax)) := by
  funext x
  simp [in_range, Bool.decide_and]

/-- C11: out-of-range samples are dropped, not clamped. For every sample list and
binning spec, `c_uniform1d` returns the same as on the list with every sample that
fails `xmin <= x < xmax` removed, and `c_uniform1d_weighted` the same as with those
samples removed together with their weights. In particular a sample below `xmin`
or at or above `xmax`, inserted anywhere in the list, changes no bin. -/
theorem out_of_range_dropped (data weights : List ℚ) (count : List Int) (sumw sumw2 : List ℚ)
    (nbins : Nat) (xmin xmax : ℚ) (hw : weights.length = data.length) :
    c_uniform1d data count nbins xmin xmax =
        c_uniform1d (data.filter (fun x => decide (xmin ≤ x ∧ x < xmax))) count nbins xmin xmax ∧
      c_uniform1d_weighted data weights sumw sumw2 nbins xmin xmax =
        c_uniform1d_weighted
          (((data.zip weights).filter (fun p => decide (xmin ≤ p.1 ∧ p.1 < xmax))).map Prod.fst)
          (((data.zip weights).filter (fun p => decide (xmin ≤ p.1 ∧ p.1 < xmax))).map Prod.snd)
          sumw sumw2 nbins xmin xmax ∧
      ∀ (a b : List ℚ) (x : ℚ), x < xmin ∨ xmax ≤ x →
        c_uniform1d (a ++ x :: b) count nbins xmin xmax =
          c_uniform1d (a ++ b) count nbins xmin xmax := by
  have hcount : ∀ l : List ℚ, c_uniform1d l count nbins xmin xmax =
      c_uniform1d (l.filter (fun x => in_range x xmin xmax)) count nbins xmin xmax := by
    intro l
    unfold c_uniform1d
    cases memset0 count nbins with
    | none => rfl
    | some count0 => exact uniform1d_loop_filter nbins xmin xmax l count0
  have hfun : (fun p : ℚ × ℚ => in_range p.1 xmin xmax) =
      (fun p => decide (xmin ≤ p.1 ∧ p.1 < xmax)) := by
    funext p
    exact congrFun (in_range_eq_decide xmin xmax) p.1
  refine ⟨?_, ?_, ?_⟩
  · rw [← in_range_eq_decide]
    exact hcount data
  · rw [← hfun]
    unfold c_uniform1d_weighted
    cases memset0 sumw nbins with
    | none => rfl
    | some count0 =>
      cases memset0 sumw2 nbins with
      | none => rfl
      | some sumw20 =>
        exact uniform1d_weighted_loop_filter nbins xmin xmax data weights (count0, sumw20) hw
  · intro a b x hx
    have hr : in_range x xmin xmax = false := by
      rcases hx with h | h
      · simp [in_range, h]
      · simp [in_range, h]
    rw [hcount (a ++ x :: b), hcount (a ++ b), List.filter_append, List.filter_append,
      List.filter_cons_of_neg (by simp [hr])]

/-- Witness of C11: five samples with weights `1, 1, 1, 2, 5`. -/
theorem out_of_range_dropped_witness :
    ([1, 1, 1, 2, 5] : List ℚ).length = ([0, 1, 2, 5 / 2, 3] : List ℚ).length ∧
      (c_uniform1d [0, 1, 2, 5 / 2, 3] [7, 7, 7] 3 0 3 =
        c_uniform1d (([0, 1, 2, 5 / 2, 3] : List ℚ).filter
          (fun x => decide ((0 : ℚ) ≤ x ∧ x < 3))) [7, 7, 7] 3 0 3 ∧
      c_uniform1d_weighted [0, 1, 2, 5 / 2, 3] [1, 1, 1, 2, 5] [8, 8, 8] [9, 9, 9] 3 0 3 =
        c_uniform1d_weighted
          (((([0, 1, 2, 5 / 2, 3] : List ℚ).zip ([1, 1, 1, 2, 5] : List ℚ)).filter
            (fun p => decide ((0 : ℚ) ≤ p.1 ∧ p.1 < 3))).map Prod.fst)
          (((([0, 1, 2, 5 / 2, 3] : List ℚ).zip ([1, 1, 1, 2, 5] : List ℚ)).filter
            (fun p => decide ((0 : ℚ) ≤ p.1 ∧ p.1 < 3))).map Prod.snd)
          [8, 8, 8] [9, 9, 9] 3 0 3 ∧
      ∀ (a b : List ℚ) (x : ℚ), x < 0 ∨ 3 ≤ x →
        c_uniform1d (a ++ x :: b) [7, 7, 7] 3 0 3 = c_uniform1d (a ++ b) [7, 7, 7] 3 0 3) :=
  ⟨rfl, out_of_range_dropped [0, 1, 2, 5 / 2, 3] [1, 1, 1, 2, 5] [7, 7, 7] [8, 8, 8] [9, 9, 9]
    3 0 3 rfl⟩

/-- C12: result buffers are fully overwritten. For every two prior contents of the
`nbins`-cell result buffers and the same samples, weights and binning spec, the
resulting buffers are identical, for `c_uniform1d` and for both buffers of
`c_uniform1d_weighted`. -/
theorem result_independent_of_prior (data weights : List ℚ) (count count' : List Int)
    (sumw sumw' sumw2 sumw2' : List ℚ) (nbins : Nat) (xmin xmax : ℚ)
    (h1 : count.length = nbins) (h1' : count'.length = nbins)
    (h2 : sumw.length = nbins) (h2' : sumw'.length = nbins)
    (h3 : sumw2.length = nbins) (h3' : sumw2'.length = nbins) :
    c_uniform1d data count nbins xmin xmax = c_uniform1d data count' nbins xmin xmax ∧
      c_uniform1d_weighted data weights sumw sumw2 nbins xmin xmax =
        c_uniform1d_weighted data weights sumw' sumw2' nbins xmin xmax := by
  constructor
  · unfold c_uniform1d
    rw [memset0_of_length count nbins h1, memset0_of_length count' nbins h1']
  · unfold c_uniform1d_weighted
    rw [memset0_of_length sumw nbins h2, memset0_of_length sumw' nbins h2',
      memset0_of_length sumw2 nbins h3, memset0_of_length sumw2' nbins h3']

/-- Witness of C12: prior contents `7, 7, 7` against `-1, 0, 5`. -/
theorem result_independent_of_prior_witness :
    ([7, 7, 7] : List Int).length = 3 ∧ ([-1, 0, 5] : List Int).length = 3 ∧
      ([8, 8, 8] : List ℚ).length = 3 ∧ ([1, 2, 3] : List ℚ).length = 3 ∧
      ([9, 9, 9] : List ℚ).length = 3 ∧ ([4, 5, 6] : List ℚ).length = 3 ∧
      (c_uniform1d [0, 1, 2, 5 / 2, 3] [7, 7, 7] 3 0 3 =
        c_uniform1d [0, 1, 2, 5 / 2, 3] [-1, 0, 5] 3 0 3 ∧
      c_uniform1d_weighted [0, 1, 2, 5 / 2, 3] [1, 1, 1, 2, 5] [8, 8, 8] [9, 9, 9] 3 0 3 =
        c_uniform1d_weighted [0, 1, 2, 5 / 2, 3] [1, 1, 1, 2, 5] [1, 2, 3] [4, 5, 6] 3 0 3) :=
  ⟨rfl, rfl, rfl, rfl, rfl, rfl,
    result_independent_of_prior [0, 1, 2, 5 / 2, 3] [1, 1, 1, 2, 5] [7, 7, 7] [-1, 0, 5]
      [8, 8, 8] [1, 2, 3] [9, 9, 9] [4, 5, 6] 3 0 3 rfl rfl rfl rfl rfl rfl⟩

/-! ## Worked examples, empty input and malformed specs -/

/-- C13: worked example, unweighted. On the samples `0.0, 1.0, 2.0, 2.5, 3.0` with
`nbins = 3`, `xmin = 0.0`, `xmax = 3.0`, whatever the three cells of the result
buffer held before, `c_uniform1d` returns the counts `1, 1, 2`. -/
theorem c_uniform1d_worked_example (a b c : Int) :
    c_uniform1d [0, 1, 2, 5 / 2, 3] [a, b, c] 3 0 3 = some [1, 1, 2] := by
  unfold c_uniform1d
  rw [memset0_of_length [a, b, c] 3 rfl]
  decide!

/-- C14: worked example, weighted. On the samples `0.0, 1.0, 2.0, 2.5, 3.0` with
weights `1, 1, 1, 2, 5`, `nbins = 3`, `xmin = 0.0`, `xmax = 3.0`, whatever the
result buffers held before, `c_uniform1d_weighted` returns `sumw = 1, 1, 3` and
`sumw2 = 1, 1, 5`. -/
theorem c_uniform1d_weighted_worked_example (a b c d e f : ℚ) :
    c_uniform1d_weighted [0, 1, 2, 5 / 2, 3] [1, 1, 1, 2, 5] [a, b, c] [d, e, f] 3 0 3 =
      some ([1, 1, 3], [1, 1, 5]) := by
  unfold c_uniform1d_weighted
  rw [memset0_of_length [a, b, c] 3 rfl, memset0_of_length [d, e, f] 3 rfl]
  decide!
theorem getD_replicate_zero {α : Type} [Zero α] (n j : Nat) :
    (List.replicate n (0 : α)).getD j 0 = 0 := by
  rw [List.getD_eq_getElem?_getD, List.getElem?_replicate]
  split <;> rfl

theorem omp_region_nil (nbins : Nat) (xmin xmax : ℚ) (owner : List Nat) :
    ∀ (order : List Nat) (count : List Int), count.length = nbins →
      (∀ a ∈ count, wrap64 a = a) →
      omp_region nbins xmin xmax [] owner order count = some count := by
  intro order
  induction order with
  | nil => intro count _ _; rfl
  | cons t ts ih =>
    intro count hlen hc
    have hmerge : merge_counts count (List.replicate nbins 0) nbins = some count := by
      rw [merge_counts_eq count _ nbins hlen (by simp)]
      refine congrArg some (List.ext_getElem? fun n => ?_)
      rw [List.getElem?_mapIdx]
      cases hn : count[n]? with
      | none => rfl
      | some a =>
        rw [Option.map_some', getD_replicate_zero, add_zero, hc a (List.getElem?_mem hn)]
    simp only [omp_region, thread_slice_nil, uniform1d_loop, new_zeroed, hmerge]
    exact ih count hlen hc

theorem omp_region_weighted_nil (nbins : Nat) (xmin xmax : ℚ) (weights : List ℚ)
    (owner : List Nat) :
    ∀ (order : List Nat) (bufs : List ℚ × List ℚ), bufs.1.length = nbins →
      bufs.2.length = nbins →
      omp_region_weighted nbins xmin xmax [] weights owner order bufs = some bufs := by
  intro order
  induction order with
  | nil => intro bufs _ _; rfl
  | cons t ts ih =>
    intro bufs h1 h2
    have hmerge : merge_weighted bufs (List.replicate nbins 0, List.replicate nbins 0) nbins =
        some bufs := by
      rw [merge_weighted_eq bufs _ nbins h1 h2 (by simp) (by simp)]
      simp only [getD_replicate_zero, add_zero, mapIdx_add_zero]
    simp only [omp_region_weighted, thread_slice_nil, uniform1d_weighted_loop, new_zeroed, hmerge]
    exact ih bufs h1 h2

/-- C15: empty input. With an empty sample buffer (`n = 0`) and result buffers of
`nbins` cells, for every binning spec `c_uniform1d` returns `nbins` zeros and
`c_uniform1d_weighted` returns `nbins` zeros in both buffers, without error; so
do the parallel kernels for every team of threads `order` (any number of
threads, merging in any order). -/
theorem empty_input_all_zero (weights : List ℚ) (count : List Int) (sumw sumw2 : List ℚ)
    (nbins : Nat) (xmin xmax : ℚ) (owner order : List Nat)
    (h1 : count.length = nbins) (h2 : sumw.length = nbins) (h3 : sumw2.length = nbins) :
    c_uniform1d [] count nbins xmin xmax = some (List.replicate nbins 0) ∧
      c_uniform1d_weighted [] weights sumw sumw2 nbins xmin xmax =
        some (List.replicate nbins 0, List.replicate nbins 0) ∧
      c_uniform1d_omp [] count nbins xmin xmax owner order = some (List.replicate nbins 0) ∧
      c_uniform1d_weighted_omp [] weights sumw sumw2 nbins xmin xmax owner order =
        some (List.replicate nbins 0, List.replicate nbins 0) := by
  refine ⟨?_, ?_, ?_, ?_⟩
  · unfold c_uniform1d
    rw [memset0_of_length count nbins h1]
    rfl
  · unfold c_uniform1d_weighted
    rw [memset0_of_length sumw nbins h2, memset0_of_length sumw2 nbins h3]
    rfl
  · unfold c_uniform1d_omp
    rw [memset0_of_length count nbins h1]
    exact omp_region_nil nbins xmin xmax owner order _ (by simp) (wrapped_replicate_zero nbins)
  · unfold c_uniform1d_weighted_omp
    rw [memset0_of_length sumw nbins h2, memset0_of_length sumw2 nbins h3]
    exact omp_region_weighted_nil nbins xmin xmax weights owner order _ (by simp) (by simp)

/-- Witness of C15: three bins on `[0, 3)` and a team of four threads. -/
theorem empty_input_all_zero_witness :
    ([7, 7, 7] : List Int).length = 3 ∧ ([8, 8, 8] : List ℚ).length = 3 ∧
      ([9, 9, 9] : List ℚ).length = 3 ∧
      (c_uniform1d [] [7, 7, 7] 3 0 3 = some (List.replicate 3 0) ∧
      c_uniform1d_weighted [] [] [8, 8, 8] [9, 9, 9] 3 0 3 =
        some (List.replicate 3 0, List.replicate 3 0) ∧
      c_uniform1d_omp [] [7, 7, 7] 3 0 3 [] [3, 1, 0, 2] = some (List.replicate 3 0) ∧
      c_uniform1d_weighted_omp [] [] [8, 8, 8] [9, 9, 9] 3 0 3 [] [3, 1, 0, 2] =
        some (List.replicate 3 0, List.replicate 3 0)) :=
  ⟨rfl, rfl, rfl,
    empty_input_all_zero [] [7, 7, 7] [8, 8, 8] [9, 9, 9] 3 0 3 [] [3, 1, 0, 2] rfl rfl rfl⟩

/-- C16: no defensive validation of the binning spec. With the malformed spec
`nbins = 0` and `xmin < xmax` on the length-0 result buffer, the kernel reports no
error before the accumulation loop (the `memset` succeeds, and a sample list
without in-range samples yields the empty result); every computed bin index is
`0`, which lies outside the buffer, so for every sample list with at least one
in-range sample the bounds-checked write fails. -/
theorem no_validation_of_nbins (data : List ℚ) (xmin xmax : ℚ) (_hx : xmin < xmax)
    (h : ∃ x ∈ data, xmin ≤ x ∧ x < xmax) :
    memset0 ([] : List Int) 0 = some [] ∧
      (∀ l : List ℚ, (∀ x ∈ l, ¬ (xmin ≤ x ∧ x < xmax)) →
        c_uniform1d l [] 0 xmin xmax = some []) ∧
      (∀ x : ℚ, bin_id x 0 xmin xmax = 0 ∧ incr [] (bin_id x 0 xmin xmax) = none) ∧
      c_uniform1d data [] 0 xmin xmax = none := by
  refine ⟨rfl, ?_, ?_, ?_⟩
  · intro l hl
    have hnil : l.filter (fun x => in_range x xmin xmax) = [] := by
      rw [List.filter_eq_nil_iff]
      intro x hx
      rw [in_range_iff]
      exact hl x hx
    unfold c_uniform1d
    rw [memset0_of_length [] 0 rfl]
    simp only
    rw [uniform1d_loop_filter, hnil]
    rfl
  · intro x
    have hb : bin_id x 0 xmin xmax = 0 := by simp [bin_id, to_size_t]
    exact ⟨hb, by rw [hb]; rfl⟩
  · obtain ⟨x, hx, hr⟩ := h
    exact c_uniform1d_out_of_bounds data [] 0 xmin xmax rfl
      ⟨x, hx, (in_range_iff x xmin xmax).mpr hr, Nat.zero_le _⟩

/-- Witness of C16: the samples `-1, 1/2, 5` on `[0, 3)` with `nbins = 0`. -/
theorem no_validation_of_nbins_witness :
    (0 : ℚ) < 3 ∧ (∃ x ∈ ([-1, 1 / 2, 5] : List ℚ), (0 : ℚ) ≤ x ∧ x < 3) ∧
      (memset0 ([] : List Int) 0 = some [] ∧
      (∀ l : List ℚ, (∀ x ∈ l, ¬ ((0 : ℚ) ≤ x ∧ x < 3)) → c_uniform1d l [] 0 0 3 = some []) ∧
      (∀ x : ℚ, bin_id x 0 0 3 = 0 ∧ incr [] (bin_id x 0 0 3) = none) ∧
      c_uniform1d [-1, 1 / 2, 5] [] 0 0 3 = none) :=
  ⟨by norm_num, ⟨1 / 2, by simp, by norm_num, by norm_num⟩,
    no_validation_of_nbins [-1, 1 / 2, 5] 0 3 (by norm_num)
      ⟨1 / 2, by simp, by norm_num, by norm_num⟩⟩

/-! ## Unit weights, overflow, degenerate ranges and input order -/

theorem bin_sum_unit_weights (f : ℚ → ℚ) (hf : f 1 = 1) (j nbins : Nat) (xmin xmax : ℚ)
    (data : List ℚ) :
    bin_sum f j nbins xmin xmax data (List.replicate data.length 1) =
      ((data.countP (lands_in j nbins xmin xmax) : Nat) : ℚ) := by
  induction data with
  | nil => simp [bin_sum_nil]
  | cons x xs ih =>
    rw [List.length_cons, List.replicate_succ, bin_sum_cons, ih, List.countP_cons, hf]
    by_cases h : lands_in j nbins xmin xmax x = true
    · simp [h, add_comm]
    · simp [h]

/-- C17: unit weights reduce to counting. For every sample list (its length a C
`int`), valid binning spec and buffers of `nbins` cells, `c_uniform1d_weighted`
with every weight equal to `1` returns `sumw` and `sumw2` that both equal, bin by
bin, the counts returned by `c_uniform1d` on the same samples. -/
theorem unit_weights_reduce_to_counts (data weights : List ℚ) (count : List Int)
    (sumw sumw2 : List ℚ) (nbins : Nat) (xmin xmax : ℚ) (hint : data.length < 2 ^ 31)
    (hw : weights.length = data.length) (hone : ∀ w ∈ weights, w = 1)
    (h1 : count.length = nbins) (h2 : sumw.length = nbins) (h3 : sumw2.length = nbins)
    (hn : 0 < nbins) (hx : xmin < xmax) :
    ∃ out : List Int, c_uniform1d data count nbins xmin xmax = some out ∧
      c_uniform1d_weighted data weights sumw sumw2 nbins xmin xmax =
        some (out.map (fun c : Int => (c : ℚ)), out.map (fun c : Int => (c : ℚ))) := by
  have hsafe := safe_of_valid data nbins xmin xmax hn hx
  have hweights : weights = List.replicate data.length 1 := by
    rw [List.eq_replicate_iff]
    exact ⟨hw, hone⟩
  have hout : c_uniform1d data count nbins xmin xmax =
      some ((List.range nbins).map
        (fun j => ((data.countP (lands_in j nbins xmin xmax) : Nat) : Int))) := by
    rw [c_uniform1d_closed data count nbins xmin xmax h1 hsafe]
    refine congrArg some (List.map_congr_left ?_)
    intro j _
    exact wrap64_count data _ (by omega)
  refine ⟨_, hout, ?_⟩
  rw [c_uniform1d_weighted_closed data weights sumw sumw2 nbins xmin xmax hw h2 h3 hsafe,
    hweights, List.map_map]
  have e1 : (fun j => bin_sum id j nbins xmin xmax data (List.replicate data.length 1)) =
      ((fun c : Int => (c : ℚ)) ∘
        fun j => ((data.countP (lands_in j nbins xmin xmax) : Nat) : Int)) := by
    funext j
    rw [bin_sum_unit_weights id rfl]
    simp
  have e2 : (fun j => bin_sum (fun w => w * w) j nbins xmin xmax data
        (List.replicate data.length 1)) =
      ((fun c : Int => (c : ℚ)) ∘
        fun j => ((data.countP (lands_in j nbins xmin xmax) : Nat) : Int)) := by
    funext j
    rw [bin_sum_unit_weights (fun w => w * w) (by norm_num)]
    simp
  rw [e1, e2]

/-- Witness of C17: five samples with unit weights. -/
theorem unit_weights_reduce_to_counts_witness :
    ([0, 1, 2, 5 / 2, 3] : List ℚ).length < 2 ^ 31 ∧
      ([1, 1, 1, 1, 1] : List ℚ).length = ([0, 1, 2, 5 / 2, 3] : List ℚ).length ∧
      (∀ w ∈ ([1, 1, 1, 1, 1] : List ℚ), w = 1) ∧
      ([7, 7, 7] : List Int).length = 3 ∧ ([8, 8, 8] : List ℚ).length = 3 ∧
      ([9, 9, 9] : List ℚ).length = 3 ∧ 0 < 3 ∧ (0 : ℚ) < 3 ∧
      ∃ out : List Int, c_uniform1d [0, 1, 2, 5 / 2, 3] [7, 7, 7] 3 0 3 = some out ∧
        c_uniform1d_weighted [0, 1, 2, 5 / 2, 3] [1, 1, 1, 1, 1] [8, 8, 8] [9, 9, 9] 3 0 3 =
          some (out.map (fun c : Int => (c : ℚ)), out.map (fun c : Int => (c : ℚ))) :=
  ⟨by decide, rfl, by simp, rfl, rfl, rfl, by decide, by norm_num,
    unit_weights_reduce_to_counts [0, 1, 2, 5 / 2, 3] [1, 1, 1, 1, 1] [7, 7, 7] [8, 8, 8]
      [9, 9, 9] 3 0 3 (by decide) rfl (by simp) rfl rfl rfl (by decide) (by norm_num)⟩

theorem incr_unbounded_of_lt (count : List Int) (b : Nat) (h : b < count.length) :
    incr_unbounded count b = some (count.set b (count[b] + 1)) := by
  simp [incr_unbounded, List.getElem?_eq_getElem h]

theorem uniform1d_loop_unbounded_eq (nbins : Nat) (xmin xmax : ℚ) (data : List ℚ) :
    ∀ count : List Int,
      (∀ x ∈ data, in_range x xmin xmax = true → bin_id x nbins xmin xmax < count.length) →
      uniform1d_loop_unbounded nbins xmin xmax data count =
        some (count.mapIdx
          (fun j a => a + ((data.countP (lands_in j nbins xmin xmax) : Nat) : Int))) := by
  induction data with
  | nil =>
    intro count _
    simp only [uniform1d_loop_unbounded, List.countP_nil, Nat.cast_zero, add_zero]
    refine congrArg some (List.ext_getElem? fun n => ?_)
    simp
  | cons x xs ih =>
    intro count hsafe
    have hsafe' : ∀ y ∈ xs, in_range y xmin xmax = true →
        bin_id y nbins xmin xmax < count.length :=
      fun y hy => hsafe y (List.mem_cons_of_mem _ hy)
    cases hr : in_range x xmin xmax with
    | false =>
      simp only [uniform1d_loop_unbounded, hr, Bool.not_false, if_true]
      rw [ih count hsafe']
      simp [List.countP_cons, lands_in_of_not_in_range _ _ _ _ _ hr]
    | true =>
      have hb := hsafe x (List.mem_cons_self _ _) hr
      simp only [uniform1d_loop_unbounded, hr, Bool.not_true, incr_unbounded_of_lt count _ hb]
      rw [if_neg (by simp)]
      rw [ih _ (by simpa using hsafe')]
      refine congrArg some (List.ext_getElem? fun n => ?_)
      simp only [List.getElem?_mapIdx, List.countP_cons, lands_in, hr, Bool.true_and]
      by_cases hn : bin_id x nbins xmin xmax = n
      · subst hn
        simp [List.getElem?_set_self hb, List.getElem?_eq_getElem hb]
        ring
      · simp [List.getElem?_set_ne hn, hn]

/-- C18: counts cannot overflow. For every input whose sample length `n` is a C
`int` (`n < 2^31`), valid binning spec and buffer of `nbins` cells, every entry of
the counts returned by `c_uniform1d` satisfies `0 <= counts[j] <= n`, and the
64-bit accumulation returns exactly what the accumulation over unbounded integers
returns. -/
theorem counts_do_not_overflow (data : List ℚ) (count : List Int) (nbins : Nat) (xmin xmax : ℚ)
    (hint : data.length < 2 ^ 31) (hbuf : count.length = nbins) (hn : 0 < nbins)
    (hx : xmin < xmax) :
    ∃ out : List Int, c_uniform1d data count nbins xmin xmax = some out ∧
      (∀ c ∈ out, 0 ≤ c ∧ c ≤ (data.length : Int)) ∧
      c_uniform1d_unbounded data count nbins xmin xmax = some out := by
  have hsafe := safe_of_valid data nbins xmin xmax hn hx
  have hout : c_uniform1d data count nbins xmin xmax =
      some ((List.range nbins).map
        (fun j => ((data.countP (lands_in j nbins xmin xmax) : Nat) : Int))) := by
    rw [c_uniform1d_closed data count nbins xmin xmax hbuf hsafe]
    refine congrArg some (List.map_congr_left ?_)
    intro j _
    exact wrap64_count data _ (by omega)
  refine ⟨_, hout, ?_, ?_⟩
  · intro c hc
    obtain ⟨j, _, rfl⟩ := List.mem_map.mp hc
    have hle : data.countP (lands_in j nbins xmin xmax) ≤ data.length := List.countP_le_length _
    exact ⟨Int.ofNat_nonneg _, by exact_mod_cast hle⟩
  · unfold c_uniform1d_unbounded
    rw [memset0_of_length count nbins hbuf]
    simp only
    rw [uniform1d_loop_unbounded_eq nbins xmin xmax data _ (by simpa using hsafe)]
    refine congrArg some (List.ext_getElem? fun n => ?_)
    by_cases hlt : n < nbins
    · simp [List.getElem?_replicate, hlt, List.getElem?_range hlt]
    · simp [List.getElem?_replicate, hlt,
        List.getElem?_eq_none (l := List.range nbins) (by simpa using hlt)]

/-- Witness of C18 on five samples with three bins on `[0, 3)`. -/
theorem counts_do_not_overflow_witness :
    ([0, 1, 2, 5 / 2, 3] : List ℚ).length < 2 ^ 31 ∧ ([7, 7, 7] : List Int).length = 3 ∧
      0 < 3 ∧ (0 : ℚ) < 3 ∧
      ∃ out : List Int, c_uniform1d [0, 1, 2, 5 / 2, 3] [7, 7, 7] 3 0 3 = some out ∧
        (∀ c ∈ out, 0 ≤ c ∧ c ≤ ((([0, 1, 2, 5 / 2, 3] : List ℚ).length : Nat) : Int)) ∧
        c_uniform1d_unbounded [0, 1, 2, 5 / 2, 3] [7, 7, 7] 3 0 3 = some out :=
  ⟨by decide, rfl, by decide, by norm_num,
    counts_do_not_overflow [0, 1, 2, 5 / 2, 3] [7, 7, 7] 3 0 3 (by decide) rfl (by decide)
      (by norm_num)⟩

theorem uniform1d_weighted_loop_of_none_in_range (nbins : Nat) (xmin xmax : ℚ) (data : List ℚ)
    (h : ∀ x ∈ data, in_range x xmin xmax = false) :
    ∀ (weights : List ℚ) (bufs : List ℚ × List ℚ),
      uniform1d_weighted_loop nbins xmin xmax data weights bufs = some bufs := by
  induction data with
  | nil => intro weights bufs; simp [uniform1d_weighted_loop]
  | cons x xs ih =>
    intro weights bufs
    obtain ⟨count, sumw2⟩ := bufs
    simp only [uniform1d_weighted_loop, h x (List.mem_cons_self _ _), Bool.not_false, if_true]
    exact ih (fun y hy => h y (List.mem_cons_of_mem _ hy)) weights.tail (count, sumw2)

/-- C19: a degenerate range is harmless. For every sample list, every weight list
and every `nbins` with buffers of `nbins` cells, when `xmax <= xmin` no sample
passes the inclusion test, so no bin index is used, `c_uniform1d` returns all
zeros and `c_uniform1d_weighted` returns all zeros in both buffers. -/
theorem degenerate_range_all_zero (data weights : List ℚ) (count : List Int)
    (sumw sumw2 : List ℚ) (nbins : Nat) (xmin xmax : ℚ) (hdeg : xmax ≤ xmin)
    (h1 : count.length = nbins) (h2 : sumw.length = nbins) (h3 : sumw2.length = nbins) :
    (∀ x : ℚ, in_range x xmin xmax = false) ∧
      c_uniform1d data count nbins xmin xmax = some (List.replicate nbins 0) ∧
      c_uniform1d_weighted data weights sumw sumw2 nbins xmin xmax =
        some (List.replicate nbins 0, List.replicate nbins 0) := by
  have hout : ∀ x : ℚ, in_range x xmin xmax = false := by
    intro x
    rw [← Bool.not_eq_true, in_range_iff]
    rintro ⟨ha, hb⟩
    exact absurd (lt_of_le_of_lt ha hb) (not_lt.mpr hdeg)
  refine ⟨hout, ?_, ?_⟩
  · have hnil : data.filter (fun x => in_range x xmin xmax) = [] := by
      rw [List.filter_eq_nil_iff]
      intro x _
      simp [hout x]
    unfold c_uniform1d
    rw [memset0_of_length count nbins h1]
    simp only
    rw [uniform1d_loop_filter, hnil]
    rfl
  · unfold c_uniform1d_weighted
    rw [memset0_of_length sumw nbins h2, memset0_of_length sumw2 nbins h3]
    exact uniform1d_weighted_loop_of_none_in_range nbins xmin xmax data (fun x _ => hout x) _ _

/-- Witness of C19: the range `[3, 0)` with three bins. -/
theorem degenerate_range_all_zero_witness :
    (0 : ℚ) ≤ 3 ∧ ([7, 7, 7] : List Int).length = 3 ∧ ([8, 8, 8] : List ℚ).length = 3 ∧
      ([9, 9, 9] : List ℚ).length = 3 ∧
      ((∀ x : ℚ, in_range x 3 0 = false) ∧
      c_uniform1d [0, 1, 2, 5 / 2, 3] [7, 7, 7] 3 3 0 = some (List.replicate 3 0) ∧
      c_uniform1d_weighted [0, 1, 2, 5 / 2, 3] [1, 1, 1, 2, 5] [8, 8, 8] [9, 9, 9] 3 3 0 =
        some (List.replicate 3 0, List.replicate 3 0)) :=
  ⟨by norm_num, rfl, rfl, rfl,
    degenerate_range_all_zero [0, 1, 2, 5 / 2, 3] [1, 1, 1, 2, 5] [7, 7, 7] [8, 8, 8] [9, 9, 9]
      3 3 0 (by norm_num) rfl rfl rfl⟩

theorem bin_sum_perm (f : ℚ → ℚ) (j nbins : Nat) (xmin xmax : ℚ) (pairs pairs' : List (ℚ × ℚ))
    (hp : pairs.Perm pairs') :
    bin_sum f j nbins xmin xmax (pairs.map Prod.fst) (pairs.map Prod.snd) =
      bin_sum f j nbins xmin xmax (pairs'.map Prod.fst) (pairs'.map Prod.snd) := by
  have hz : ∀ l : List (ℚ × ℚ), (l.map Prod.fst).zip (l.map Prod.snd) = l := by
    intro l
    have := List.zip_unzip l
    rwa [List.unzip_eq_map] at this
  unfold bin_sum
  rw [hz pairs, hz pairs']
  exact ((hp.filter _).map _).sum_eq

/-- C20: order independence of the input. For every valid binning spec and buffers
of `nbins` cells, two sample lists that are permutations of each other give the
same counts in `c_uniform1d`, and two lists of (sample, weight) pairs that are
permutations of each other give the same `sumw` and `sumw2` in
`c_uniform1d_weighted` (exact arithmetic). -/
theorem order_independent (data data' : List ℚ) (pairs pairs' : List (ℚ × ℚ))
    (count : List Int) (sumw sumw2 : List ℚ) (nbins : Nat) (xmin xmax : ℚ)
    (hperm : data.Perm data') (hpairs : pairs.Perm pairs')
    (h1 : count.length = nbins) (h2 : sumw.length = nbins) (h3 : sumw2.length = nbins)
    (hn : 0 < nbins) (hx : xmin < xmax) :
    (∃ out : List Int, c_uniform1d data count nbins xmin xmax = some out ∧
      c_uniform1d data' count nbins xmin xmax = some out) ∧
    (∃ out out2 : List ℚ,
      c_uniform1d_weighted (pairs.map Prod.fst) (pairs.map Prod.snd) sumw sumw2 nbins xmin xmax =
        some (out, out2) ∧
      c_uniform1d_weighted (pairs'.map Prod.fst) (pairs'.map Prod.snd) sumw sumw2 nbins
        xmin xmax = some (out, out2)) := by
  constructor
  · refine ⟨_, c_uniform1d_closed data count nbins xmin xmax h1
      (safe_of_valid data nbins xmin xmax hn hx), ?_⟩
    rw [c_uniform1d_closed data' count nbins xmin xmax h1
      (safe_of_valid data' nbins xmin xmax hn hx)]
    refine congrArg some (List.map_congr_left ?_)
    intro j _
    rw [hperm.countP_eq]
  · refine ⟨_, _, c_uniform1d_weighted_closed (pairs.map Prod.fst) (pairs.map Prod.snd) sumw
      sumw2 nbins xmin xmax (by simp) h2 h3 (safe_of_valid _ nbins xmin xmax hn hx), ?_⟩
    rw [c_uniform1d_weighted_closed (pairs'.map Prod.fst) (pairs'.map Prod.snd) sumw
      sumw2 nbins xmin xmax (by simp) h2 h3 (safe_of_valid _ nbins xmin xmax hn hx)]
    simp only [bin_sum_perm _ _ nbins xmin xmax pairs pairs' hpairs]

/-- Witness of C20: the samples `0, 1, 5/2` against `5/2, 0, 1`, with weights
`1, 2, 5` permuted along. -/
theorem order_independent_witness :
    ([0, 1, 5 / 2] : List ℚ).Perm [5 / 2, 0, 1] ∧
      ([(0, 1), (1, 2), (5 / 2, 5)] : List (ℚ × ℚ)).Perm [(5 / 2, 5), (0, 1), (1, 2)] ∧
      ([7, 7, 7] : List Int).length = 3 ∧ ([8, 8, 8] : List ℚ).length = 3 ∧
      ([9, 9, 9] : List ℚ).length = 3 ∧ 0 < 3 ∧ (0 : ℚ) < 3 ∧
      ((∃ out : List Int, c_uniform1d [0, 1, 5 / 2] [7, 7, 7] 3 0 3 = some out ∧
        c_uniform1d [5 / 2, 0, 1] [7, 7, 7] 3 0 3 = some out) ∧
      (∃ out out2 : List ℚ,
        c_uniform1d_weighted (([(0, 1), (1, 2), (5 / 2, 5)] : List (ℚ × ℚ)).map Prod.fst)
          (([(0, 1), (1, 2), (5 / 2, 5)] : List (ℚ × ℚ)).map Prod.snd) [8, 8, 8] [9, 9, 9]
          3 0 3 = some (out, out2) ∧
        c_uniform1d_weighted (([(5 / 2, 5), (0, 1), (1, 2)] : List (ℚ × ℚ)).map Prod.fst)
          (([(5 / 2, 5), (0, 1), (1, 2)] : List (ℚ × ℚ)).map Prod.snd) [8, 8, 8] [9, 9, 9]
          3 0 3 = some (out, out2))) :=
  ⟨by decide!, by decide!, rfl, rfl, rfl, by decide, by norm_num,
    order_independent [0, 1, 5 / 2] [5 / 2, 0, 1] [(0, 1), (1, 2), (5 / 2, 5)]
      [(5 / 2, 5), (0, 1), (1, 2)] [7, 7, 7] [8, 8, 8] [9, 9, 9] 3 0 3
      (by decide!) (by decide!) rfl rfl rfl (by decide) (by norm_num)⟩

/-! ## Behaviour of the serial kernels in double precision -/

/-- Counterexample to C2 as stated: in `double`, with three bins on `[-1, 0)` the
sample `-2^-60` (a value of `double`) passes the inclusion test, but
`x - xmin` rounds to `1.0`, the computed index is `3 = nbins`, and the write is
outside the three-cell buffer: no counts summing to the one in-range sample are
returned. -/
theorem conservation_fails_in_double :
    rnd (-(1 / 2 ^ 60)) = F64.fin (-(1 / 2 ^ 60)) ∧
      in_range_f64 (F64.fin (-(1 / 2 ^ 60))) (F64.fin (-1)) (F64.fin 0) = true ∧
      f64_sub (F64.fin (-(1 / 2 ^ 60))) (F64.fin (-1)) = F64.fin 1 ∧
      bin_id_f64 (F64.fin (-(1 / 2 ^ 60))) 3 (F64.fin (-1)) (F64.fin 0) = some 3 ∧
      c_uniform1d_f64 [F64.fin (-(1 / 2 ^ 60))] [0, 0, 0] 3 (F64.fin (-1)) (F64.fin 0) = none ∧
      ¬ ∃ out : List Int,
        c_uniform1d_f64 [F64.fin (-(1 / 2 ^ 60))] [0, 0, 0] 3 (F64.fin (-1)) (F64.fin 0) =
          some out ∧
        out.sum = (([F64.fin (-(1 / 2 ^ 60))] : List F64).countP
          (fun x => in_range_f64 x (F64.fin (-1)) (F64.fin 0)) : Nat) := by
  have hnone : c_uniform1d_f64 [F64.fin (-(1 / 2 ^ 60))] [0, 0, 0] 3 (F64.fin (-1))
      (F64.fin 0) = none := by decide!
  refine ⟨by decide!, by decide!, by decide!, by decide!, hnone, ?_⟩
  rintro ⟨out, hout, _⟩
  rw [hnone] at hout
  cases hout

/-- Counterexample to the weighted half of C7 as stated: in `double`, with one bin
on `[0, 1)`, the weights `1e16` followed by `1, 1` accumulate to `1e16` on the whole
buffer (each `1e16 + 1` rounds back to `1e16`), while the two parts give `1e16` and
`2`, whose sum is `1e16 + 2`. -/
theorem weighted_additivity_fails_in_double :
    rnd (10 ^ 16) = F64.fin (10 ^ 16) ∧
      (c_uniform1d_weighted_f64 [F64.fin 0, F64.fin 0, F64.fin 0]
        [F64.fin (10 ^ 16), F64.fin 1, F64.fin 1] [0] [0] 1 (F64.fin 0) (F64.fin 1)).map
          Prod.fst = some [F64.fin (10 ^ 16)] ∧
      (c_uniform1d_weighted_f64 [F64.fin 0] [F64.fin (10 ^ 16)] [0] [0] 1 (F64.fin 0)
        (F64.fin 1)).map Prod.fst = some [F64.fin (10 ^ 16)] ∧
      (c_uniform1d_weighted_f64 [F64.fin 0, F64.fin 0] [F64.fin 1, F64.fin 1] [0] [0] 1
        (F64.fin 0) (F64.fin 1)).map Prod.fst = some [F64.fin 2] ∧
      List.zipWith f64_add [F64.fin (10 ^ 16)] [F64.fin 2] = [F64.fin (10 ^ 16 + 2)] ∧
      [F64.fin (10 ^ 16)] ≠ List.zipWith f64_add [F64.fin (10 ^ 16)] [F64.fin 2] := by
  refine ⟨by decide!, by decide!, by decide!, by decide!, by decide!, by decide!⟩

/-- Counterexample to the `xmin` half of C8 as stated: in `double`, with three bins
on `[0, 2^-1030)` the constant `norm = 1.0 / (xmax - xmin)` overflows to `+inf`, so
for the sample `x = xmin = 0` the product `0 * norm` is NaN, its conversion to
`size_t` is undefined, and the histogram of `[xmin]` is not `1, 0, 0`. -/
theorem xmin_boundary_fails_in_double :
    rnd (1 / 2 ^ 1030) = F64.fin (1 / 2 ^ 1030) ∧
      norm_f64 (F64.fin 0) (F64.fin (1 / 2 ^ 1030)) = F64.inf false ∧
      f64_mul (f64_sub (F64.fin 0) (F64.fin 0)) (F64.inf false) = F64.nan ∧
      bin_id_f64 (F64.fin 0) 3 (F64.fin 0) (F64.fin (1 / 2 ^ 1030)) = none ∧
      c_uniform1d_f64 [F64.fin 0] [0, 0, 0] 3 (F64.fin 0) (F64.fin (1 / 2 ^ 1030)) = none ∧
      c_uniform1d_f64 [F64.fin 0] [0, 0, 0] 3 (F64.fin 0) (F64.fin (1 / 2 ^ 1030)) ≠
        some ((List.replicate 3 0).set 0 1) := by
  refine ⟨by decide!, by decide!, by decide!, by decide!, by decide!, by decide!⟩

theorem index_ok_f64_iff (x : F64) (nbins : Nat) (xmin xmax : F64) :
    index_ok_f64 x nbins xmin xmax = true ↔
      ∃ b, bin_id_f64 x nbins xmin xmax = some b ∧ b < nbins := by
  unfold index_ok_f64
  cases h : bin_id_f64 x nbins xmin xmax with
  | none => simp
  | some b => simp

theorem lands_in_f64_of_not_in_range (j nbins : Nat) (xmin xmax x : F64)
    (h : in_range_f64 x xmin xmax = false) : lands_in_f64 j nbins xmin xmax x = false := by
  simp [lands_in_f64, h]

theorem uniform1d_loop_f64_eq (nbins : Nat) (xmin xmax : F64) (data : List F64) :
    ∀ count : List Int, (∀ a ∈ count, wrap64 a = a) →
      (∀ x ∈ data, in_range_f64 x xmin xmax = true →
        ∃ b, bin_id_f64 x nbins xmin xmax = some b ∧ b < count.length) →
      uniform1d_loop_f64 nbins xmin xmax data count =
        some (count.mapIdx
          (fun j a => wrap64 (a + ((data.countP (lands_in_f64 j nbins xmin xmax) : Nat) : Int)))) := by
  induction data with
  | nil =>
    intro count hc _
    simp only [uniform1d_loop_f64, Option.some.injEq]
    apply List.ext_getElem?
    intro n
    rw [List.getElem?_mapIdx]
    cases hn : count[n]? with
    | none => rfl
    | some a =>
      have := hc a (List.getElem?_mem hn)
      simp [this]
  | cons x xs ih =>
    intro count hc hsafe
    have hsafe' : ∀ y ∈ xs, in_range_f64 y xmin xmax = true →
        ∃ b, bin_id_f64 y nbins xmin xmax = some b ∧ b < count.length :=
      fun y hy => hsafe y (List.mem_cons_of_mem _ hy)
    cases hr : in_range_f64 x xmin xmax with
    | false =>
      simp only [uniform1d_loop_f64, hr, Bool.not_false, if_true]
      rw [ih count hc hsafe']
      simp [List.countP_cons, lands_in_f64_of_not_in_range _ _ _ _ _ hr]
    | true =>
      obtain ⟨b, hb, hlt⟩ := hsafe x (List.mem_cons_self _ _) hr
      simp only [uniform1d_loop_f64, hr, Bool.not_true, hb, incr_of_lt count _ hlt]
      rw [if_neg (by simp)]
      rw [ih _ (wrapped_set count _ _ hc) (by simpa using hsafe')]
      simp only [Option.some.injEq]
      apply List.ext_getElem?
      intro n
      simp only [List.getElem?_mapIdx, List.countP_cons, lands_in_f64, hr, hb, Bool.true_and,
        Option.some.injEq]
      by_cases hn : b = n
      · subst hn
        simp [List.getElem?_set_self hlt, List.getElem?_eq_getElem hlt, wrap64_add_left]
        congr 1
        ring
      · simp [List.getElem?_set_ne hn, hn]

/-- Closed form of `c_uniform1d_f64` on a buffer of exactly `nbins` cells when
every in-range sample has a computed index inside the buffer. -/
theorem c_uniform1d_f64_closed (data : List F64) (count : List Int) (nbins : Nat)
    (xmin xmax : F64) (hlen : count.length = nbins)
    (hsafe : ∀ x ∈ data, in_range_f64 x xmin xmax = true →
      index_ok_f64 x nbins xmin xmax = true) :
    c_uniform1d_f64 data count nbins xmin xmax =
      some ((List.range nbins).map
        (fun j => wrap64 ((data.countP (lands_in_f64 j nbins xmin xmax) : Nat) : Int))) := by
  unfold c_uniform1d_f64
  rw [memset0_of_length count nbins hlen]
  simp only
  rw [uniform1d_loop_f64_eq nbins xmin xmax data _ (wrapped_replicate_zero nbins) (by
    intro x hx hr
    simpa using (index_ok_f64_iff x nbins xmin xmax).mp (hsafe x hx hr))]
  rw [mapIdx_replicate_zero]

theorem sum_countP_lands_in_f64 (data : List F64) (nbins : Nat) (xmin xmax : F64)
    (hsafe : ∀ x ∈ data, in_range_f64 x xmin xmax = true →
      index_ok_f64 x nbins xmin xmax = true) :
    ∑ j in Finset.range nbins, data.countP (lands_in_f64 j nbins xmin xmax) =
      data.countP (fun x => in_range_f64 x xmin xmax) := by
  have hcongr : ∀ j, data.countP (lands_in_f64 j nbins xmin xmax) =
      data.countP (fun x => in_range_f64 x xmin xmax &&
        decide ((bin_id_f64 x nbins xmin xmax).getD 0 = j)) := by
    intro j
    apply List.countP_congr
    intro x hx
    cases hr : in_range_f64 x xmin xmax with
    | false => simp [lands_in_f64, hr]
    | true =>
      obtain ⟨b, hb, _⟩ := (index_ok_f64_iff x nbins xmin xmax).mp (hsafe x hx hr)
      simp [lands_in_f64, hr, hb]
  simp only [hcongr, countP_eq_sum_ones]
  exact sum_over_keys (fun x => in_range_f64 x xmin xmax)
    (fun x => (bin_id_f64 x nbins xmin xmax).getD 0) (fun _ => 1) nbins data (by
      intro x hx hr
      obtain ⟨b, hb, hlt⟩ := (index_ok_f64_iff x nbins xmin xmax).mp (hsafe x hx hr)
      simpa [hb] using hlt)

theorem f64_lt_irrefl (x : F64) : f64_lt x x = false := by
  cases x with
  | fin q => simp [f64_lt]
  | inf s => cases s <;> rfl
  | nan => rfl

theorem rnd_zero : rnd 0 = F64.fin 0 := by
  simp [rnd]

/-- C2: conservation of counts. For every sample list, `nbins > 0` and
`xmin < xmax`, the sum over all bins of the counts returned by `c_uniform1d` is the
number of samples `x` with `xmin <= x < xmax`: in exact arithmetic for every
input, and in `double` for every input on which the computed bin index of each
in-range sample is below `nbins`. -/
theorem conservation_of_counts (data : List ℚ) (dataf : List F64) (count : List Int)
    (nbins : Nat) (xmin xmax : ℚ) (xminf xmaxf : F64) (hint : data.length < 2 ^ 31)
    (hintf : dataf.length < 2 ^ 31) (hbuf : count.length = nbins) (hn : 0 < nbins)
    (hx : xmin < xmax)
    (hidx : ∀ x ∈ dataf, in_range_f64 x xminf xmaxf = true →
      index_ok_f64 x nbins xminf xmaxf = true) :
    (∃ out, c_uniform1d data count nbins xmin xmax = some out ∧
      out.sum = ((data.countP (fun x => decide (xmin ≤ x ∧ x < xmax)) : Nat) : Int)) ∧
    (∃ out, c_uniform1d_f64 dataf count nbins xminf xmaxf = some out ∧
      out.sum = ((dataf.countP (fun x => in_range_f64 x xminf xmaxf) : Nat) : Int)) := by
  refine ⟨c_uniform1d_conservation data count nbins xmin xmax hint hbuf hn hx, ?_⟩
  refine ⟨_, c_uniform1d_f64_closed dataf count nbins xminf xmaxf hbuf hidx, ?_⟩
  rw [range_map_sum_eq, ← sum_countP_lands_in_f64 dataf nbins xminf xmaxf hidx]
  push_cast
  refine Finset.sum_congr rfl (fun j _ => ?_)
  have h1 : dataf.countP (lands_in_f64 j nbins xminf xmaxf) ≤ dataf.length :=
    List.countP_le_length _
  apply wrap64_of_bounds <;> omega

/-- Witness of C2 on the five samples `0, 1, 2, 5/2, 3` with three bins on `[0, 3)`,
in exact arithmetic and in `double`. -/
theorem conservation_of_counts_witness :
    ([0, 1, 2, 5 / 2, 3] : List ℚ).length < 2 ^ 31 ∧
      ([F64.fin 0, F64.fin 1, F64.fin 2, F64.fin (5 / 2), F64.fin 3] : List F64).length <
        2 ^ 31 ∧
      ([7, 7, 7] : List Int).length = 3 ∧ 0 < 3 ∧ (0 : ℚ) < 3 ∧
      (∀ x ∈ ([F64.fin 0, F64.fin 1, F64.fin 2, F64.fin (5 / 2), F64.fin 3] : List F64),
        in_range_f64 x (F64.fin 0) (F64.fin 3) = true →
          index_ok_f64 x 3 (F64.fin 0) (F64.fin 3) = true) ∧
      ((∃ out, c_uniform1d [0, 1, 2, 5 / 2, 3] [7, 7, 7] 3 0 3 = some out ∧
        out.sum = ((([0, 1, 2, 5 / 2, 3] : List ℚ).countP
          (fun x => decide ((0 : ℚ) ≤ x ∧ x < 3)) : Nat) : Int)) ∧
      (∃ out, c_uniform1d_f64 [F64.fin 0, F64.fin 1, F64.fin 2, F64.fin (5 / 2), F64.fin 3]
          [7, 7, 7] 3 (F64.fin 0) (F64.fin 3) = some out ∧
        out.sum = ((([F64.fin 0, F64.fin 1, F64.fin 2, F64.fin (5 / 2), F64.fin 3] :
          List F64).countP (fun x => in_range_f64 x (F64.fin 0) (F64.fin 3)) : Nat) : Int))) :=
  ⟨by decide, by decide, rfl, by decide, by norm_num, by decide!,
    conservation_of_counts [0, 1, 2, 5 / 2, 3]
      [F64.fin 0, F64.fin 1, F64.fin 2, F64.fin (5 / 2), F64.fin 3] [7, 7, 7] 3 0 3
      (F64.fin 0) (F64.fin 3) (by decide) (by decide) rfl (by decide) (by norm_num)
      (by decide!)⟩

/-- C7: additivity over a split of the input. For sample lists `a` and `b`,
`nbins > 0` and `xmin < xmax`, `c_uniform1d (a ++ b)` is the element-wise sum of
`c_uniform1d a` and `c_uniform1d b`, in exact arithmetic and, in `double`, for
every input on which the computed bin index of each in-range sample is below
`nbins`; and in exact arithmetic, with the weights split at the same position,
both buffers of `c_uniform1d_weighted (a ++ b) (wa ++ wb)` are the element-wise
sums of those of `c_uniform1d_weighted a wa` and `c_uniform1d_weighted b wb`. -/
theorem additivity_over_split (a b wa wb : List ℚ) (af bf : List F64) (count : List Int)
    (sumw sumw2 : List ℚ) (nbins : Nat) (xmin xmax : ℚ) (xminf xmaxf : F64)
    (hint : (a ++ b).length < 2 ^ 31) (hintf : (af ++ bf).length < 2 ^ 31)
    (hwa : wa.length = a.length) (hwb : wb.length = b.length) (hbuf : count.length = nbins)
    (hbufw : sumw.length = nbins) (hbufw2 : sumw2.length = nbins) (hn : 0 < nbins)
    (hx : xmin < xmax)
    (hidx : ∀ x ∈ af ++ bf, in_range_f64 x xminf xmaxf = true →
      index_ok_f64 x nbins xminf xmaxf = true) :
    (∃ ra rb, c_uniform1d a count nbins xmin xmax = some ra ∧
      c_uniform1d b count nbins xmin xmax = some rb ∧
      c_uniform1d (a ++ b) count nbins xmin xmax = some (List.zipWith (· + ·) ra rb)) ∧
    (∃ ra rb, c_uniform1d_f64 af count nbins xminf xmaxf = some ra ∧
      c_uniform1d_f64 bf count nbins xminf xmaxf = some rb ∧
      c_uniform1d_f64 (af ++ bf) count nbins xminf xmaxf =
        some (List.zipWith (· + ·) ra rb)) ∧
    (∃ sa sa2 sb sb2,
      c_uniform1d_weighted a wa sumw sumw2 nbins xmin xmax = some (sa, sa2) ∧
      c_uniform1d_weighted b wb sumw sumw2 nbins xmin xmax = some (sb, sb2) ∧
      c_uniform1d_weighted (a ++ b) (wa ++ wb) sumw sumw2 nbins xmin xmax =
        some (List.zipWith (· + ·) sa sb, List.zipWith (· + ·) sa2 sb2)) := by
  have hex := c_uniform1d_additive a b wa wb count sumw sumw2 nbins xmin xmax hint hwa hwb hbuf
    hbufw hbufw2 hn hx
  refine ⟨hex.1, ?_, hex.2⟩
  have hla : af.length < 2 ^ 63 := by simp at hintf; omega
  have hlb : bf.length < 2 ^ 63 := by simp at hintf; omega
  have hlab : (af ++ bf).length < 2 ^ 63 := by omega
  have hcnt : ∀ (l : List F64) (p : F64 → Bool), l.length < 2 ^ 63 →
      wrap64 ((l.countP p : Nat) : Int) = ((l.countP p : Nat) : Int) := by
    intro l p hl
    have h1 : l.countP p ≤ l.length := List.countP_le_length p
    apply wrap64_of_bounds <;> omega
  refine ⟨_, _, c_uniform1d_f64_closed af count nbins xminf xmaxf hbuf
      (fun x hx => hidx x (List.mem_append_left _ hx)),
    c_uniform1d_f64_closed bf count nbins xminf xmaxf hbuf
      (fun x hx => hidx x (List.mem_append_right _ hx)), ?_⟩
  rw [c_uniform1d_f64_closed (af ++ bf) count nbins xminf xmaxf hbuf hidx, zipWith_range_map]
  refine congrArg some (List.map_congr_left ?_)
  intro j _
  rw [hcnt _ _ hla, hcnt _ _ hlb, hcnt _ _ hlab, List.countP_append]
  push_cast
  rfl

/-- Witness of C7: the samples `0, 1, 2` followed by `5/2, 3`, in exact arithmetic
and in `double`. -/
theorem additivity_over_split_witness :
    (([0, 1, 2] : List ℚ) ++ [5 / 2, 3]).length < 2 ^ 31 ∧
      (([F64.fin 0, F64.fin 1, F64.fin 2] : List F64) ++ [F64.fin (5 / 2), F64.fin 3]).length <
        2 ^ 31 ∧
      ([1, 1, 1] : List ℚ).length = ([0, 1, 2] : List ℚ).length ∧
      ([2, 5] : List ℚ).length = ([5 / 2, 3] : List ℚ).length ∧
      ([7, 7, 7] : List Int).length = 3 ∧ ([8, 8, 8] : List ℚ).length = 3 ∧
      ([9, 9, 9] : List ℚ).length = 3 ∧ 0 < 3 ∧ (0 : ℚ) < 3 ∧
      (∀ x ∈ ([F64.fin 0, F64.fin 1, F64.fin 2] : List F64) ++ [F64.fin (5 / 2), F64.fin 3],
        in_range_f64 x (F64.fin 0) (F64.fin 3) = true →
          index_ok_f64 x 3 (F64.fin 0) (F64.fin 3) = true) ∧
      ((∃ ra rb, c_uniform1d [0, 1, 2] [7, 7, 7] 3 0 3 = some ra ∧
        c_uniform1d [5 / 2, 3] [7, 7, 7] 3 0 3 = some rb ∧
        c_uniform1d ([0, 1, 2] ++ [5 / 2, 3]) [7, 7, 7] 3 0 3 =
          some (List.zipWith (· + ·) ra rb)) ∧
      (∃ ra rb, c_uniform1d_f64 [F64.fin 0, F64.fin 1, F64.fin 2] [7, 7, 7] 3 (F64.fin 0)
          (F64.fin 3) = some ra ∧
        c_uniform1d_f64 [F64.fin (5 / 2), F64.fin 3] [7, 7, 7] 3 (F64.fin 0) (F64.fin 3) =
          some rb ∧
        c_uniform1d_f64 ([F64.fin 0, F64.fin 1, F64.fin 2] ++ [F64.fin (5 / 2), F64.fin 3])
          [7, 7, 7] 3 (F64.fin 0) (F64.fin 3) = some (List.zipWith (· + ·) ra rb)) ∧
      (∃ sa sa2 sb sb2,
        c_uniform1d_weighted [0, 1, 2] [1, 1, 1] [8, 8, 8] [9, 9, 9] 3 0 3 = some (sa, sa2) ∧
        c_uniform1d_weighted [5 / 2, 3] [2, 5] [8, 8, 8] [9, 9, 9] 3 0 3 = some (sb, sb2) ∧
        c_uniform1d_weighted ([0, 1, 2] ++ [5 / 2, 3]) ([1, 1, 1] ++ [2, 5]) [8, 8, 8] [9, 9, 9]
            3 0 3 =
          some (List.zipWith (· + ·) sa sb, List.zipWith (· + ·) sa2 sb2))) :=
  ⟨by decide, by decide, rfl, rfl, rfl, rfl, rfl, by decide, by norm_num, by decide!,
    additivity_over_split [0, 1, 2] [5 / 2, 3] [1, 1, 1] [2, 5]
      [F64.fin 0, F64.fin 1, F64.fin 2] [F64.fin (5 / 2), F64.fin 3] [7, 7, 7] [8, 8, 8]
      [9, 9, 9] 3 0 3 (F64.fin 0) (F64.fin 3) (by decide) (by decide) rfl rfl rfl rfl rfl
      (by decide) (by norm_num) (by decide!)⟩

/-- C8: boundary exclusion. For `nbins > 0` and `xmin < xmax`, the histogram of the
one-element list `[xmax]` is all zero, in exact arithmetic and in `double`; and
the histogram of `[xmin]` is `1` at index `0` and `0` elsewhere, in exact
arithmetic and, in `double`, for finite `xmin < xmax` whose
`norm = 1.0 / (xmax - xmin)` is finite. -/
theorem boundary_exclusion (count : List Int) (nbins : Nat) (xmin xmax a b v : ℚ)
    (xminf xmaxf : F64) (hbuf : count.length = nbins) (hn : 0 < nbins) (hx : xmin < xmax)
    (hab : a < b) (hnorm : norm_f64 (F64.fin a) (F64.fin b) = F64.fin v) :
    (c_uniform1d [xmax] count nbins xmin xmax = some (List.replicate nbins 0) ∧
      c_uniform1d [xmin] count nbins xmin xmax = some ((List.replicate nbins 0).set 0 1)) ∧
    c_uniform1d_f64 [xmaxf] count nbins xminf xmaxf = some (List.replicate nbins 0) ∧
    c_uniform1d_f64 [F64.fin a] count nbins (F64.fin a) (F64.fin b) =
      some ((List.replicate nbins 0).set 0 1) := by
  refine ⟨c_uniform1d_boundary count nbins xmin xmax hbuf hn hx, ?_, ?_⟩
  · have hmax : in_range_f64 xmaxf xminf xmaxf = false := by
      simp [in_range_f64, f64_lt_irrefl]
    simp [c_uniform1d_f64, memset0_of_length count nbins hbuf, uniform1d_loop_f64, hmax]
  · have hmin : in_range_f64 (F64.fin a) (F64.fin a) (F64.fin b) = true := by
      simp [in_range_f64, f64_le, f64_lt, hab]
    have hb : bin_id_f64 (F64.fin a) nbins (F64.fin a) (F64.fin b) = some 0 := by
      unfold bin_id_f64
      rw [hnorm]
      simp [f64_sub, f64_mul, rnd_zero, f64_to_size_t]
    simp [c_uniform1d_f64, memset0_of_length count nbins hbuf, uniform1d_loop_f64, hmin, hb,
      incr_of_lt (List.replicate nbins 0) 0 (by simpa using hn), wrap64_one]

/-- Witness of C8 with three bins on `[0, 3)`: in `double`, `norm` is the finite
value nearest to `1/3`. -/
theorem boundary_exclusion_witness :
    ([7, 7, 7] : List Int).length = 3 ∧ 0 < 3 ∧ (0 : ℚ) < 3 ∧ (0 : ℚ) < 3 ∧
      norm_f64 (F64.fin 0) (F64.fin 3) = F64.fin (6004799503160661 / 18014398509481984) ∧
      ((c_uniform1d [3] [7, 7, 7] 3 0 3 = some (List.replicate 3 0) ∧
        c_uniform1d [0] [7, 7, 7] 3 0 3 = some ((List.replicate 3 0).set 0 1)) ∧
      c_uniform1d_f64 [F64.fin 3] [7, 7, 7] 3 (F64.fin 0) (F64.fin 3) =
        some (List.replicate 3 0) ∧
      c_uniform1d_f64 [F64.fin 0] [7, 7, 7] 3 (F64.fin 0) (F64.fin 3) =
        some ((List.replicate 3 0).set 0 1)) :=
  ⟨rfl, by decide, by norm_num, by norm_num, by decide!,
    boundary_exclusion [7, 7, 7] 3 0 3 0 3 (6004799503160661 / 18014398509481984) (F64.fin 0)
      (F64.fin 3) rfl (by decide) (by norm_num) (by norm_num) (by decide!)⟩

end Pygram11
